import Mathlib

/-!
Verification of the unary inclusion-dependency discovery program
(`inclusion_dependencies.go`).  The Go source is shallowly embedded:
pure functions become Lean functions, the mutable driver state becomes
explicit state passing, Go's 64-bit machine integers become `Nat`/`Int`
with explicit reduction modulo `2 ^ 64`, and panicking code paths return
`Except`/`Option` errors.
-/

namespace IncDep

/-- Two to the sixty-fourth power, the modulus of Go's `uint64` arithmetic. -/
def u64Mod : Nat := 18446744073709551616

/-- The largest signed 64-bit integer, Go's `math.MaxInt64`. -/
def maxInt64 : Int := 9223372036854775807

/-- The smallest signed 64-bit integer, Go's `math.MinInt64`. -/
def minInt64 : Int := -9223372036854775808

/-- Embeds Go's `strconv.ParseInt(s, 10, 64)`: an optional single sign
followed by a nonempty run of decimal digits, with the value required to
fit in a signed 64-bit integer; `none` models a non-nil error (both
syntax and range errors). -/
def parseInt64 (s : String) : Option Int :=
  match s.data with
  | [] => none
  | c :: rest =>
    let signed : Bool × List Char :=
      if c = '-' then (true, rest) else if c = '+' then (false, rest) else (false, c :: rest)
    if signed.2 = [] then none
    else if signed.2.all Char.isDigit then
      let n : Nat := signed.2.foldl (fun a d => a * 10 + (d.toNat - 48)) 0
      if signed.1 then
        if (n : Int) ≤ 9223372036854775808 then some (-(n : Int)) else none
      else
        if (n : Int) ≤ maxInt64 then some (n : Int) else none
    else none

/-- Embeds `IsInt` from the source: whether `strconv.ParseInt(s, 10, 64)`
succeeds. -/
def isInt (s : String) : Bool := (parseInt64 s).isSome

/-- Decimal mantissa with optional fraction part: digits, optionally a
single dot, at least one digit overall. -/
def isMantissa (cs : List Char) : Bool :=
  let intPart := cs.takeWhile Char.isDigit
  let rest := cs.dropWhile Char.isDigit
  match rest with
  | [] => ¬ intPart.isEmpty
  | '.' :: frac => (¬ intPart.isEmpty ∨ ¬ frac.isEmpty) && frac.all Char.isDigit
  | _ => false

/-- Optional exponent part `e`/`E`, optional sign, nonempty digits. -/
def splitExponent (cs : List Char) : List Char × Option Bool :=
  let mant := cs.takeWhile (fun c => c ≠ 'e' ∧ c ≠ 'E')
  match cs.dropWhile (fun c => c ≠ 'e' ∧ c ≠ 'E') with
  | [] => (mant, some true)
  | _ :: expPart =>
    let digits := if expPart.head? = some '+' ∨ expPart.head? = some '-' then expPart.tail else expPart
    (mant, if ¬ digits.isEmpty ∧ digits.all Char.isDigit then some true else none)

/-- Models the syntax accepted by Go's `strconv.ParseFloat(s, 32)`:
an optional sign, then either a case-insensitive special form
(`inf`, `infinity`, `nan`) or a decimal mantissa with an optional
exponent.  Float32 range overflow (which also yields a non-nil error in
Go) is not modelled; no theorem in this file depends on the `float`
versus `string` distinction, only on both being distinct from `int`. -/
def isFloat (s : String) : Bool :=
  match s.data with
  | [] => false
  | c :: rest =>
    let body := if c = '-' ∨ c = '+' then rest else c :: rest
    let lower := body.map Char.toLower
    if lower = "inf".data ∨ lower = "infinity".data ∨ lower = "nan".data then true
    else
      match splitExponent body with
      | (mant, some _) => isMantissa mant
      | (_, none) => false

/-- Embeds `Column.AnalyzeType`'s type trichotomy: the inferred
`dataType` of a column whose first observed value is `v`. -/
def inferType (v : String) : String :=
  if isInt v then "int" else if isFloat v then "float" else "string"

/-- UTF-8 encoding of a single character, as the list of its byte values;
Go's `[]byte(input)` on the corresponding string produces these bytes. -/
def utf8Bytes (c : Char) : List Nat :=
  let n := c.toNat
  if n < 128 then [n]
  else if n < 2048 then [192 + n / 64, 128 + n % 64]
  else if n < 65536 then [224 + n / 4096, 128 + n / 64 % 64, 128 + n % 64]
  else [240 + n / 262144, 128 + n / 4096 % 64, 128 + n / 64 % 64, 128 + n % 64]

/-- The UTF-8 bytes of a string, each as a `Nat` below 256. -/
def strBytes (s : String) : List Nat := s.data.flatMap utf8Bytes

/-- Go `len` on a string: its length in bytes. -/
def byteLen (s : String) : Nat := (strBytes s).length

/-- The FNV 64-bit offset basis, the state of `fnv.New64()` before any
write. -/
def fnvOffset : Nat := 14695981039346656037

/-- The FNV 64-bit prime. -/
def fnvPrime : Nat := 1099511628211

/-- One step of the FNV-1 64-bit hash (`fnv.New64()` in the source):
multiply by the prime modulo `2 ^ 64`, then xor in the byte. -/
def fnv1Step (h b : Nat) : Nat := (h * fnvPrime % u64Mod) ^^^ b

/-- Absorbing a byte sequence into an FNV-1 64-bit accumulator, starting
from state `h`; embeds `hash.Write(bytes)` on Go's `fnv.New64()` digest. -/
def fnv1Absorb (h : Nat) (bs : List Nat) : Nat := bs.foldl fnv1Step h

/-- The FNV-1 64-bit digest of a byte sequence. -/
def fnv1 (bs : List Nat) : Nat := fnv1Absorb fnvOffset bs

/-- One step of FNV-1a (xor first, then multiply).  Modelled from the
spec: the spec and claim C4 describe the string filter's cascade as
FNV-1a, while the source constructs `fnv.New64()`, Go's FNV-1; this
definition exists to compare the two. -/
def fnv1aStep (h b : Nat) : Nat := (h ^^^ b) * fnvPrime % u64Mod

/-- Absorbing a byte sequence into an FNV-1a accumulator (spec-modelled,
for comparison with the source's FNV-1). -/
def fnv1aAbsorb (h : Nat) (bs : List Nat) : Nat := bs.foldl fnv1aStep h

/-- Helper for `stringHashes`: the remaining `k` loop iterations of
`stringBloomFilter.Hashes`, carrying the never-reset accumulator `h`. -/
def stringHashesAux (bs : List Nat) (m : Nat) : Nat → Nat → List Nat
  | 0, _ => []
  | k + 1, h =>
    let h' := fnv1Absorb h bs
    h' % m :: stringHashesAux bs m k h'

/-- Embeds `stringBloomFilter.Hashes`: writes the input's bytes `k`
times into a single FNV-1 accumulator that is never reset, emitting each
successive digest reduced modulo `m`. -/
def stringHashes (k m : Nat) (s : String) : List Nat :=
  stringHashesAux (strBytes s) m k fnvOffset

/-- The cascade as claim C4 words it, with FNV-1a in place of the
source's FNV-1 (spec-modelled, for the comparison in the C4
counterexample). -/
def stringHashesSpecFnv1aAux (bs : List Nat) (m : Nat) : Nat → Nat → List Nat
  | 0, _ => []
  | k + 1, h =>
    let h' := fnv1aAbsorb h bs
    h' % m :: stringHashesSpecFnv1aAux bs m k h'

/-- Spec-modelled FNV-1a variant of `stringHashes` (see `fnv1aStep`). -/
def stringHashesSpecFnv1a (k m : Nat) (s : String) : List Nat :=
  stringHashesSpecFnv1aAux (strBytes s) m k fnvOffset

/-- Go's conversion `uint(v)` of a signed 64-bit value: the value modulo
`2 ^ 64`, as a natural number. -/
def uintOfInt64 (v : Int) : Nat := (v % (u64Mod : Int)).toNat

/-- Embeds `intBloomFilter.Hash`: parse the input as a signed 64-bit
integer, substituting `math.MaxInt64` on a parse failure, convert to
`uint`, and reduce modulo `m`. -/
def intHash (m : Nat) (s : String) : Nat :=
  let number : Int :=
    match parseInt64 s with
    | none => maxInt64
    | some v => v
  uintOfInt64 number % m

/-- Embeds the `intStatistics` struct: running sum for the average
(exact here, where Go uses `float64`; no claim inspects rounding),
maximum and minimum.  The vestigial `statistics.samples` field is
omitted: `Sample` returns unconditionally before touching it. -/
structure IntStats where
  average : ℚ
  maximum : Int
  minimum : Int
  deriving DecidableEq

/-- The initial `intStatistics` allocated by `AnalyzeType`: average 0,
maximum `math.MinInt64`, minimum `math.MaxInt64`. -/
def intStatsInit : IntStats := ⟨0, minInt64, maxInt64⟩

/-- Embeds `intStatistics.Add`: parse failures return early, leaving the
statistics unchanged; otherwise min and max are tightened and the value
is added to the running sum. -/
def intStatsAdd (st : IntStats) (s : String) : IntStats :=
  match parseInt64 s with
  | none => st
  | some value =>
    { minimum := if st.minimum > value then value else st.minimum,
      maximum := if st.maximum < value then value else st.maximum,
      average := st.average + (value : ℚ) }

/-- Embeds `intBloomFilter.Add`: the bit set is a finite set of indices
below `m`, and adding a value sets the bit at its hash. -/
def intFilterAdd (m : Nat) (bits : Finset Nat) (s : String) : Finset Nat :=
  insert (intHash m s) bits

/-- Folding FNV-1 over an appended byte sequence absorbs the two parts in
order. -/
theorem fnv1Absorb_append (h : Nat) (bs cs : List Nat) :
    fnv1Absorb h (bs ++ cs) = fnv1Absorb (fnv1Absorb h bs) cs :=
  List.foldl_append ..

/-- The hash cascade emits one index per remaining loop iteration. -/
theorem stringHashesAux_length (bs : List Nat) (m : Nat) :
    ∀ k h, (stringHashesAux bs m k h).length = k := by
  intro k
  induction k with
  | zero => intro h; rfl
  | succ k ih => intro h; simpa [stringHashesAux] using ih (fnv1Absorb h bs)

/-- The `i`-th index of the cascade is the FNV-1 state after absorbing the
byte sequence `i + 1` times, reduced modulo `m`. -/
theorem stringHashesAux_get? (bs : List Nat) (m : Nat) :
    ∀ k i h, i < k →
      (stringHashesAux bs m k h).get? i
        = some (fnv1Absorb h ((List.replicate (i + 1) bs).flatten) % m) := by
  intro k
  induction k with
  | zero => intro i h hik; omega
  | succ k ih =>
    intro i h hik
    cases i with
    | zero => simp [stringHashesAux]
    | succ i =>
      have h1 := ih i (fnv1Absorb h bs) (by omega)
      have h2 : (List.replicate (i + 1 + 1) bs).flatten = bs ++ (List.replicate (i + 1) bs).flatten := by
        rw [List.replicate_succ, List.flatten_cons]
      simp only [stringHashesAux, List.get?_cons_succ, h1, h2, fnv1Absorb_append]

/-- C4 (counterexample): the claim as stated is false — the source's
`fnv.New64()` is FNV-1, not FNV-1a, so already the first index emitted by
`stringBloomFilter.Hashes` on the input `"a"` differs from the FNV-1a
digest of `"a"`'s bytes written once into the accumulator, modulo
1 000 000 (the code gives 167422, the claimed FNV-1a cascade 641996). -/
theorem c4_hash_cascade_counterexample :
    (stringHashes 4 1000000 "a").get? 0
      ≠ some (fnv1aAbsorb fnvOffset ((List.replicate 1 (strBytes "a")).flatten) % 1000000)
    ∧ stringHashes 4 1000000 "a" ≠ stringHashesSpecFnv1a 4 1000000 "a" := by
  constructor <;> decide

/-- C4 (amended): for every input string `s`, `stringBloomFilter.Hashes`
returns exactly `k = 4` indices, and the `i`-th index (0-based) equals
the 64-bit FNV-1 digest — multiply by the prime, then xor, the variant
built by `fnv.New64()` — of `s`'s bytes written `i + 1` times into a
single never-reset accumulator, reduced modulo `m = 1 000 000`. -/
theorem c4_hash_cascade (s : String) :
    (stringHashes 4 1000000 s).length = 4
    ∧ ∀ i, i < 4 →
        (stringHashes 4 1000000 s).get? i
          = some (fnv1 ((List.replicate (i + 1) (strBytes s)).flatten) % 1000000) := by
  refine ⟨stringHashesAux_length .., fun i hi => ?_⟩
  exact stringHashesAux_get? (strBytes s) 1000000 4 i fnvOffset hi

/-- C4 witness: the amended theorem evaluated at `s = "a"`, `i = 3`. -/
theorem c4_hash_cascade_witness :
    (stringHashes 4 1000000 "a").length = 4
    ∧ (stringHashes 4 1000000 "a").get? 3
        = some (fnv1 ((List.replicate 4 (strBytes "a")).flatten) % 1000000) :=
  ⟨(c4_hash_cascade "a").1, (c4_hash_cascade "a").2 3 (by decide)⟩

/-- C9: a string that does not parse as a signed 64-bit integer leaves
`intStatistics.Add` a no-op on minimum, maximum and the running sum,
while `intBloomFilter.Add` sets the bit at `uint(math.MaxInt64) mod m` —
all unparseable values collide into that single sentinel bit. -/
theorem c9_parse_failure (s : String) (st : IntStats) (m : Nat) (bits : Finset Nat)
    (h : parseInt64 s = none) :
    intStatsAdd st s = st
    ∧ intHash m s = 9223372036854775807 % m
    ∧ intFilterAdd m bits s = insert (9223372036854775807 % m) bits := by
  refine ⟨?_, ?_, ?_⟩
  · simp [intStatsAdd, h]
  · simp [intHash, h, uintOfInt64, maxInt64, u64Mod]
  · simp [intFilterAdd, intHash, h, uintOfInt64, maxInt64, u64Mod]

/-- C9 witness: the theorem evaluated at the unparseable input `"x"`,
`m = 1 000 000`, on the freshly allocated statistics and empty bit set. -/
theorem c9_parse_failure_witness :
    intStatsAdd intStatsInit "x" = intStatsInit
    ∧ intHash 1000000 "x" = 9223372036854775807 % 1000000
    ∧ intFilterAdd 1000000 ∅ "x" = insert (9223372036854775807 % 1000000) ∅ :=
  c9_parse_failure "x" intStatsInit 1000000 ∅ (by decide)

/-- Embeds the `stringStatistics` struct: running length sum (exact
here, where Go uses `float64`), lexicographic extremes and length
extremes.  The empty string doubles as Go's uninitialized sentinel.
The vestigial `statistics.samples` field is omitted (see `IntStats`). -/
structure StringStats where
  averageLength : ℚ
  maximum : String
  minimum : String
  longest : String
  shortest : String
  deriving DecidableEq

/-- The initial `stringStatistics` allocated by `AnalyzeType`. -/
def strStatsInit : StringStats := ⟨0, "", "", "", ""⟩

/-- The conditional update shared by `stringStatistics.Add`'s `minimum`
(`key` the character list) and `shortest` (`key` the byte length)
fields: replace the accumulator when it is the `""` uninitialized
sentinel or the new value has a strictly smaller key. -/
def selLow {α : Type} [LinearOrder α] (key : String → α) (m v : String) : String :=
  if m = "" ∨ key v < key m then v else m

/-- The conditional update shared by `stringStatistics.Add`'s `maximum`
and `longest` fields. -/
def selHigh {α : Type} [LinearOrder α] (key : String → α) (m v : String) : String :=
  if m = "" ∨ key m < key v then v else m

/-- Embeds `stringStatistics.Add`.  String comparison is Go's byte-wise
lexicographic order, embedded as lexicographic order on the character
list, which agrees with byte order on UTF-8 text; `len` is the byte
length. -/
def strStatsAdd (st : StringStats) (v : String) : StringStats :=
  { minimum := selLow String.data st.minimum v,
    maximum := selHigh String.data st.maximum v,
    longest := selHigh byteLen st.longest v,
    shortest := selLow byteLen st.shortest v,
    averageLength := st.averageLength + (byteLen v : ℚ) }

/-- Embeds `stringBloomFilter.Add`: sets the bit at each of the `k`
cascade indices. -/
def strFilterAdd (k m : Nat) (bits : Finset Nat) (v : String) : Finset Nat :=
  bits ∪ (stringHashes k m v).toFinset

/-- The `Statistics` interface as a tagged sum of its two variants. -/
inductive Stats where
  | int (st : IntStats)
  | str (st : StringStats)
  deriving DecidableEq

/-- The `BloomFilter` interface as a tagged sum; both variants own a bit
set, modelled as the finite set of set bit indices. -/
inductive Filter where
  | int (bits : Finset Nat)
  | str (bits : Finset Nat)
  deriving DecidableEq

/-- The underlying bit set of either filter variant (`bloomFilter.Bits`). -/
def Filter.bitSet : Filter → Finset Nat
  | .int b => b
  | .str b => b

/-- Embeds `bloomFilter.SimiliarTo`: `a.bits.Difference(b.bits).None()`.
This method lives on the shared base struct, so it is total across
variants (no type assertion). -/
def filterSimilarTo (a b : Filter) : Bool :=
  decide (a.bitSet \ b.bitSet = ∅)

/-- Embeds `intStatistics.SimiliarTo` and `stringStatistics.SimiliarTo`.
Both begin with a Go type assertion on the argument, which panics when
the variants differ; `none` models that panic. -/
def statsSimilarTo : Stats → Stats → Option Bool
  | .int a, .int b =>
    some (decide (a.minimum ≥ b.minimum) && decide (a.maximum ≤ b.maximum))
  | .str a, .str b =>
    some (decide (a.minimum.data ≥ b.minimum.data) && decide (a.maximum.data ≤ b.maximum.data)
      && decide (byteLen a.shortest ≥ byteLen b.shortest)
      && decide (byteLen a.longest ≤ byteLen b.longest))
  | _, _ => none

/-- A profiled column: inferred type, statistics, filter and the
materialized value set, as left behind by `Table.Analyze`. -/
structure ColumnP where
  dataType : String
  stats : Option Stats
  filter : Option Filter
  values : Finset String
  deriving DecidableEq

/-- The statistics object a column holds after ingesting the value list
`vs` (its column of the table, in row order): `AnalyzeType` on the first
value picks the variant — `int` statistics for an integer first value,
string statistics for both `float` and `string` — then every value is
added.  An empty list leaves the nil interface. -/
def profileStats (vs : List String) : Option Stats :=
  match vs with
  | [] => none
  | v :: _ =>
    if isInt v then some (.int (vs.foldl intStatsAdd intStatsInit))
    else some (.str (vs.foldl strStatsAdd strStatsInit))

/-- The Bloom filter a column holds after ingesting `vs`: `AnalyzeType`
allocates an `intBloomFilter` with `m = 1 000 000` for an integer first
value and a `stringBloomFilter` with `m = 1 000 000`, `k = 4` otherwise,
then every value is added. -/
def profileFilter (vs : List String) : Option Filter :=
  match vs with
  | [] => none
  | v :: _ =>
    if isInt v then some (.int (vs.foldl (intFilterAdd 1000000) ∅))
    else some (.str (vs.foldl (strFilterAdd 4 1000000) ∅))

/-- The full profile of a column from its ingested value list. -/
def profileColumn (vs : List String) : ColumnP :=
  { dataType := match vs with | [] => "" | v :: _ => inferType v,
    stats := profileStats vs,
    filter := profileFilter vs,
    values := vs.toFinset }

/-- Embeds `Column.SimiliarTo` with Go's short-circuit `&&`: the type
check guards the statistics comparison, which guards the filter
comparison; `none` models the panics reachable through nil interfaces or
mismatched type assertions. -/
def colSimilarTo (a b : ColumnP) : Option Bool :=
  if a.dataType = b.dataType then
    match a.stats, b.stats with
    | some sa, some sb =>
      match statsSimilarTo sa sb with
      | none => none
      | some false => some false
      | some true =>
        match a.filter, b.filter with
        | some fa, some fb => some (filterSimilarTo fa fb)
        | _, _ => none
    | _, _ => none
  else some false

/-- The `minimum` field of a statistics fold is the `selLow String.data`
fold. -/
theorem strFold_minimum (vs : List String) (st : StringStats) :
    (vs.foldl strStatsAdd st).minimum = vs.foldl (selLow String.data) st.minimum := by
  induction vs generalizing st with
  | nil => rfl
  | cons v vs ih => simpa [strStatsAdd] using ih (strStatsAdd st v)

/-- The `maximum` field of a statistics fold is the `selHigh String.data`
fold. -/
theorem strFold_maximum (vs : List String) (st : StringStats) :
    (vs.foldl strStatsAdd st).maximum = vs.foldl (selHigh String.data) st.maximum := by
  induction vs generalizing st with
  | nil => rfl
  | cons v vs ih => simpa [strStatsAdd] using ih (strStatsAdd st v)

/-- The `shortest` field of a statistics fold is the `selLow byteLen`
fold. -/
theorem strFold_shortest (vs : List String) (st : StringStats) :
    (vs.foldl strStatsAdd st).shortest = vs.foldl (selLow byteLen) st.shortest := by
  induction vs generalizing st with
  | nil => rfl
  | cons v vs ih => simpa [strStatsAdd] using ih (strStatsAdd st v)

/-- The `longest` field of a statistics fold is the `selHigh byteLen`
fold. -/
theorem strFold_longest (vs : List String) (st : StringStats) :
    (vs.foldl strStatsAdd st).longest = vs.foldl (selHigh byteLen) st.longest := by
  induction vs generalizing st with
  | nil => rfl
  | cons v vs ih => simpa [strStatsAdd] using ih (strStatsAdd st v)

/-- A `selLow` fold started from a non-sentinel accumulator stays inside
the accumulator and the list, never drops below list elements in key,
and never rises above the start. -/
theorem foldl_selLow_bounds {α : Type} [LinearOrder α] (key : String → α) (vs : List String) :
    ∀ m : String, m ≠ "" → (∀ v ∈ vs, v ≠ "") →
      (vs.foldl (selLow key) m = m ∨ vs.foldl (selLow key) m ∈ vs)
      ∧ key (vs.foldl (selLow key) m) ≤ key m
      ∧ ∀ v ∈ vs, key (vs.foldl (selLow key) m) ≤ key v := by
  induction vs with
  | nil => exact fun m _ _ => ⟨Or.inl rfl, le_refl _, by simp⟩
  | cons v vs ih =>
    intro m hm hvs
    have hv : v ≠ "" := by simpa using hvs v (by simp)
    have hm' : selLow key m v ≠ "" := by
      unfold selLow; split
      · exact hv
      · exact hm
    have hkey' : key (selLow key m v) ≤ key m ∧ key (selLow key m v) ≤ key v := by
      unfold selLow; split
      next hc =>
        rcases hc with hc | hc
        · exact absurd hc hm
        · exact ⟨le_of_lt hc, le_refl _⟩
      next hc =>
        push_neg at hc
        exact ⟨le_refl _, hc.2⟩
    have hmem' : selLow key m v = m ∨ selLow key m v = v := by
      unfold selLow; split
      · exact Or.inr rfl
      · exact Or.inl rfl
    obtain ⟨ihmem, ihle, ihbound⟩ :=
      ih (selLow key m v) hm' (fun w hw => hvs w (List.mem_cons_of_mem v hw))
    refine ⟨?_, ?_, ?_⟩
    · rcases ihmem with h | h
      · rw [List.foldl_cons, h]
        rcases hmem' with h' | h'
        · exact Or.inl h'
        · exact Or.inr (by rw [h']; exact List.mem_cons_self v vs)
      · exact Or.inr (List.mem_cons_of_mem v (by simpa using h))
    · calc key ((v :: vs).foldl (selLow key) m) ≤ key (selLow key m v) := by simpa using ihle
        _ ≤ key m := hkey'.1
    · intro w hw
      rcases List.mem_cons.mp hw with h | h
      · subst h
        calc key ((w :: vs).foldl (selLow key) m) ≤ key (selLow key m w) := by simpa using ihle
          _ ≤ key w := hkey'.2
      · simpa using ihbound w h

/-- Dual of `foldl_selLow_bounds` for `selHigh`. -/
theorem foldl_selHigh_bounds {α : Type} [LinearOrder α] (key : String → α) (vs : List String) :
    ∀ m : String, m ≠ "" → (∀ v ∈ vs, v ≠ "") →
      (vs.foldl (selHigh key) m = m ∨ vs.foldl (selHigh key) m ∈ vs)
      ∧ key m ≤ key (vs.foldl (selHigh key) m)
      ∧ ∀ v ∈ vs, key v ≤ key (vs.foldl (selHigh key) m) := by
  induction vs with
  | nil => exact fun m _ _ => ⟨Or.inl rfl, le_refl _, by simp⟩
  | cons v vs ih =>
    intro m hm hvs
    have hv : v ≠ "" := by simpa using hvs v (by simp)
    have hm' : selHigh key m v ≠ "" := by
      unfold selHigh; split
      · exact hv
      · exact hm
    have hkey' : key m ≤ key (selHigh key m v) ∧ key v ≤ key (selHigh key m v) := by
      unfold selHigh; split
      next hc =>
        rcases hc with hc | hc
        · exact absurd hc hm
        · exact ⟨le_of_lt hc, le_refl _⟩
      next hc =>
        push_neg at hc
        exact ⟨le_refl _, hc.2⟩
    have hmem' : selHigh key m v = m ∨ selHigh key m v = v := by
      unfold selHigh; split
      · exact Or.inr rfl
      · exact Or.inl rfl
    obtain ⟨ihmem, ihle, ihbound⟩ :=
      ih (selHigh key m v) hm' (fun w hw => hvs w (List.mem_cons_of_mem v hw))
    refine ⟨?_, ?_, ?_⟩
    · rcases ihmem with h | h
      · rw [List.foldl_cons, h]
        rcases hmem' with h' | h'
        · exact Or.inl h'
        · exact Or.inr (by rw [h']; exact List.mem_cons_self v vs)
      · exact Or.inr (List.mem_cons_of_mem v (by simpa using h))
    · calc key m ≤ key (selHigh key m v) := hkey'.1
        _ ≤ key ((v :: vs).foldl (selHigh key) m) := by simpa using ihle
    · intro w hw
      rcases List.mem_cons.mp hw with h | h
      · subst h
        calc key w ≤ key (selHigh key m w) := hkey'.2
          _ ≤ key ((w :: vs).foldl (selHigh key) m) := by simpa using ihle
      · simpa using ihbound w h

/-- A `selLow` fold over a nonempty list of non-sentinel values, started
from the `""` sentinel, lands in the list and is a key lower bound. -/
theorem foldl_selLow_spec {α : Type} [LinearOrder α] (key : String → α)
    (v₀ : String) (vs : List String) (h : ∀ v ∈ v₀ :: vs, v ≠ "") :
    (v₀ :: vs).foldl (selLow key) "" ∈ v₀ :: vs
    ∧ ∀ v ∈ v₀ :: vs, key ((v₀ :: vs).foldl (selLow key) "") ≤ key v := by
  have hstep : selLow key "" v₀ = v₀ := by unfold selLow; simp
  have hv₀ : v₀ ≠ "" := by simpa using h v₀ (by simp)
  obtain ⟨hmem, hle, hbound⟩ :=
    foldl_selLow_bounds key vs v₀ hv₀ (fun w hw => h w (List.mem_cons_of_mem v₀ hw))
  rw [List.foldl_cons, hstep]
  refine ⟨?_, ?_⟩
  · rcases hmem with h' | h'
    · exact by rw [h']; exact List.mem_cons_self v₀ vs
    · exact List.mem_cons_of_mem v₀ h'
  · intro w hw
    rcases List.mem_cons.mp hw with h' | h'
    · exact h' ▸ hle
    · exact hbound w h'

/-- Dual of `foldl_selLow_spec` for `selHigh`. -/
theorem foldl_selHigh_spec {α : Type} [LinearOrder α] (key : String → α)
    (v₀ : String) (vs : List String) (h : ∀ v ∈ v₀ :: vs, v ≠ "") :
    (v₀ :: vs).foldl (selHigh key) "" ∈ v₀ :: vs
    ∧ ∀ v ∈ v₀ :: vs, key v ≤ key ((v₀ :: vs).foldl (selHigh key) "") := by
  have hstep : selHigh key "" v₀ = v₀ := by unfold selHigh; simp
  have hv₀ : v₀ ≠ "" := by simpa using h v₀ (by simp)
  obtain ⟨hmem, hle, hbound⟩ :=
    foldl_selHigh_bounds key vs v₀ hv₀ (fun w hw => h w (List.mem_cons_of_mem v₀ hw))
  rw [List.foldl_cons, hstep]
  refine ⟨?_, ?_⟩
  · rcases hmem with h' | h'
    · exact by rw [h']; exact List.mem_cons_self v₀ vs
    · exact List.mem_cons_of_mem v₀ h'
  · intro w hw
    rcases List.mem_cons.mp hw with h' | h'
    · exact h' ▸ hle
    · exact hbound w h'

/-- The `minimum`-field update step of `intStatistics.Add`. -/
def intMinUpd (m : Int) (s : String) : Int :=
  match parseInt64 s with
  | none => m
  | some x => if m > x then x else m

/-- The `maximum`-field update step of `intStatistics.Add`. -/
def intMaxUpd (m : Int) (s : String) : Int :=
  match parseInt64 s with
  | none => m
  | some x => if m < x then x else m

/-- The `minimum` field of an integer statistics fold is the
`intMinUpd` fold. -/
theorem intFold_minimum (vs : List String) (st : IntStats) :
    (vs.foldl intStatsAdd st).minimum = vs.foldl intMinUpd st.minimum := by
  induction vs generalizing st with
  | nil => rfl
  | cons v vs ih =>
    have hstep : (intStatsAdd st v).minimum = intMinUpd st.minimum v := by
      unfold intStatsAdd intMinUpd
      cases parseInt64 v <;> rfl
    simpa [hstep] using ih (intStatsAdd st v)

/-- The `maximum` field of an integer statistics fold is the
`intMaxUpd` fold. -/
theorem intFold_maximum (vs : List String) (st : IntStats) :
    (vs.foldl intStatsAdd st).maximum = vs.foldl intMaxUpd st.maximum := by
  induction vs generalizing st with
  | nil => rfl
  | cons v vs ih =>
    have hstep : (intStatsAdd st v).maximum = intMaxUpd st.maximum v := by
      unfold intStatsAdd intMaxUpd
      cases parseInt64 v <;> rfl
    simpa [hstep] using ih (intStatsAdd st v)

/-- One `intMinUpd` step never increases the accumulator. -/
theorem intMinUpd_le (m : Int) (s : String) : intMinUpd m s ≤ m := by
  unfold intMinUpd
  cases parseInt64 s with
  | none => exact le_refl m
  | some x => dsimp only; split <;> omega

/-- An `intMinUpd` fold never increases the accumulator. -/
theorem foldl_intMinUpd_le (vs : List String) :
    ∀ m : Int, vs.foldl intMinUpd m ≤ m := by
  induction vs with
  | nil => exact fun m => le_refl m
  | cons v vs ih =>
    intro m
    calc (v :: vs).foldl intMinUpd m ≤ intMinUpd m v := by simpa using ih (intMinUpd m v)
      _ ≤ m := intMinUpd_le m v

/-- An `intMinUpd` fold is bounded above by every parseable list value. -/
theorem foldl_intMinUpd_le_parsed (vs : List String) :
    ∀ (m : Int) (s : String) (x : Int), s ∈ vs → parseInt64 s = some x →
      vs.foldl intMinUpd m ≤ x := by
  induction vs with
  | nil => intro m s x hs; exact absurd hs (by simp)
  | cons v vs ih =>
    intro m s x hs hx
    rcases List.mem_cons.mp hs with h | h
    · subst h
      have h1 : vs.foldl intMinUpd (intMinUpd m s) ≤ intMinUpd m s := foldl_intMinUpd_le vs _
      have h2 : intMinUpd m s ≤ x := by
        unfold intMinUpd; rw [hx]; dsimp only; split <;> omega
      simpa using le_trans h1 h2
    · simpa using ih (intMinUpd m v) s x h hx

/-- A lower bound of the start and of every parseable value is a lower
bound of the `intMinUpd` fold. -/
theorem le_foldl_intMinUpd (vs : List String) :
    ∀ (m y : Int), y ≤ m → (∀ s ∈ vs, ∀ x, parseInt64 s = some x → y ≤ x) →
      y ≤ vs.foldl intMinUpd m := by
  induction vs with
  | nil => exact fun m y hy _ => by simpa using hy
  | cons v vs ih =>
    intro m y hy hall
    have hstep : y ≤ intMinUpd m v := by
      unfold intMinUpd
      cases hpv : parseInt64 v with
      | none => exact hy
      | some x =>
        have := hall v (by simp) x hpv
        dsimp only; split <;> omega
    simpa using ih (intMinUpd m v) y hstep (fun s hs x hx => hall s (by simp [hs]) x hx)

/-- One `intMaxUpd` step never decreases the accumulator. -/
theorem le_intMaxUpd (m : Int) (s : String) : m ≤ intMaxUpd m s := by
  unfold intMaxUpd
  cases parseInt64 s with
  | none => exact le_refl m
  | some x => dsimp only; split <;> omega

/-- An `intMaxUpd` fold never decreases the accumulator. -/
theorem le_foldl_intMaxUpd (vs : List String) :
    ∀ m : Int, m ≤ vs.foldl intMaxUpd m := by
  induction vs with
  | nil => exact fun m => le_refl m
  | cons v vs ih =>
    intro m
    calc m ≤ intMaxUpd m v := le_intMaxUpd m v
      _ ≤ (v :: vs).foldl intMaxUpd m := by simpa using ih (intMaxUpd m v)

/-- An `intMaxUpd` fold is bounded below by every parseable list value. -/
theorem parsed_le_foldl_intMaxUpd (vs : List String) :
    ∀ (m : Int) (s : String) (x : Int), s ∈ vs → parseInt64 s = some x →
      x ≤ vs.foldl intMaxUpd m := by
  induction vs with
  | nil => intro m s x hs; exact absurd hs (by simp)
  | cons v vs ih =>
    intro m s x hs hx
    rcases List.mem_cons.mp hs with h | h
    · subst h
      have h2 : x ≤ intMaxUpd m s := by
        unfold intMaxUpd; rw [hx]; dsimp only; split <;> omega
      have h1 : intMaxUpd m s ≤ vs.foldl intMaxUpd (intMaxUpd m s) := le_foldl_intMaxUpd vs _
      simpa using le_trans h2 h1
    · simpa using ih (intMaxUpd m v) s x h hx

/-- An upper bound of the start and of every parseable value is an upper
bound of the `intMaxUpd` fold. -/
theorem foldl_intMaxUpd_le (vs : List String) :
    ∀ (m y : Int), m ≤ y → (∀ s ∈ vs, ∀ x, parseInt64 s = some x → x ≤ y) →
      vs.foldl intMaxUpd m ≤ y := by
  induction vs with
  | nil => exact fun m y hy _ => by simpa using hy
  | cons v vs ih =>
    intro m y hy hall
    have hstep : intMaxUpd m v ≤ y := by
      unfold intMaxUpd
      cases hpv : parseInt64 v with
      | none => exact hy
      | some x =>
        have := hall v (by simp) x hpv
        dsimp only; split <;> omega
    simpa using ih (intMaxUpd m v) y hstep (fun s hs x hx => hall s (by simp [hs]) x hx)

/-- An `intBloomFilter.Add` fold over a value list sets exactly the
hashes of the list. -/
theorem foldl_intFilterAdd_eq (m : Nat) (vs : List String) :
    ∀ bits : Finset Nat,
      vs.foldl (intFilterAdd m) bits = bits ∪ (vs.map (intHash m)).toFinset := by
  induction vs with
  | nil => intro bits; simp
  | cons v vs ih =>
    intro bits
    rw [List.foldl_cons, ih (intFilterAdd m bits v)]
    unfold intFilterAdd
    ext x
    simp [or_assoc]

/-- A `stringBloomFilter.Add` fold over a value list sets exactly the
cascade hashes of the list. -/
theorem foldl_strFilterAdd_eq (k m : Nat) (vs : List String) :
    ∀ bits : Finset Nat,
      vs.foldl (strFilterAdd k m) bits
        = bits ∪ (vs.flatMap (stringHashes k m)).toFinset := by
  induction vs with
  | nil => intro bits; simp
  | cons v vs ih =>
    intro bits
    rw [List.foldl_cons, ih (strFilterAdd k m bits v)]
    unfold strFilterAdd
    ext x
    simp [or_assoc]

/-- A value's inferred type is `"int"` exactly when `IsInt` accepts it. -/
theorem inferType_eq_int (v : String) : inferType v = "int" ↔ isInt v = true := by
  unfold inferType
  by_cases h : isInt v
  · simp [h]
  · simp only [h, if_false, Bool.false_eq_true, iff_false]
    split <;> decide

/-- C3 (counterexample): the claim as stated is false.  The column `a`
ingests only `"b"` and the column `b` ingests `"b"`, `""`, `"c"`: both
infer `dataType = "string"`, and `a`'s raw value set is a subset of
`b`'s, yet `Column.SimiliarTo` returns `false` — ingesting the empty
string resets `stringStatistics`' `""`-sentinelled minimum, so `b`
finishes with `minimum = "c"` and the check `a.min ≥ b.min` fails on
`"b" ≥ "c"`. -/
theorem c3_sketch_counterexample :
    (profileColumn ["b"]).dataType = (profileColumn ["b", "", "c"]).dataType
    ∧ (profileColumn ["b"]).values ⊆ (profileColumn ["b", "", "c"]).values
    ∧ colSimilarTo (profileColumn ["b"]) (profileColumn ["b", "", "c"]) = some false := by
  refine ⟨rfl, by decide, by decide⟩

/-- C3 (amended): for every two profiled columns `a` and `b` with the
same inferred `dataType`, if no ingested value is the empty string (the
`stringStatistics` uninitialized sentinel) and the set of raw string
values ingested into `a` is a subset of those ingested into `b`, then
`Column.SimiliarTo(a, b)` returns `true`: the type check, the statistics
similarity predicate and the Bloom-filter bit-subsumption all hold. -/
theorem c3_sketch_no_false_negatives (va vb : List String)
    (hva : va ≠ []) (hvb : vb ≠ [])
    (hna : ∀ v ∈ va, v ≠ "") (hnb : ∀ v ∈ vb, v ≠ "")
    (htype : (profileColumn va).dataType = (profileColumn vb).dataType)
    (hsub : va.toFinset ⊆ vb.toFinset) :
    colSimilarTo (profileColumn va) (profileColumn vb) = some true := by
  obtain ⟨a₀, va', rfl⟩ := List.exists_cons_of_ne_nil hva
  obtain ⟨b₀, vb', rfl⟩ := List.exists_cons_of_ne_nil hvb
  have hmem : ∀ v ∈ a₀ :: va', v ∈ b₀ :: vb' := by
    intro v hv
    exact List.mem_toFinset.mp (hsub (List.mem_toFinset.mpr hv))
  have htype' : inferType a₀ = inferType b₀ := htype
  by_cases hint : isInt a₀ = true
  · have hib : isInt b₀ = true := by
      have : inferType b₀ = "int" := by rw [← htype', (inferType_eq_int a₀).mpr hint]
      exact (inferType_eq_int b₀).mp this
    have hmin : ((b₀ :: vb').foldl intStatsAdd intStatsInit).minimum
        ≤ ((a₀ :: va').foldl intStatsAdd intStatsInit).minimum := by
      rw [intFold_minimum, intFold_minimum]
      refine le_foldl_intMinUpd (a₀ :: va') _ _ (foldl_intMinUpd_le _ _) ?_
      intro s hs x hx
      exact foldl_intMinUpd_le_parsed _ _ s x (hmem s hs) hx
    have hmax : ((a₀ :: va').foldl intStatsAdd intStatsInit).maximum
        ≤ ((b₀ :: vb').foldl intStatsAdd intStatsInit).maximum := by
      rw [intFold_maximum, intFold_maximum]
      refine foldl_intMaxUpd_le (a₀ :: va') _ _ (le_foldl_intMaxUpd _ _) ?_
      intro s hs x hx
      exact parsed_le_foldl_intMaxUpd _ _ s x (hmem s hs) hx
    have hbits : ((a₀ :: va').foldl (intFilterAdd 1000000) ∅ : Finset Nat)
        ⊆ (b₀ :: vb').foldl (intFilterAdd 1000000) ∅ := by
      rw [foldl_intFilterAdd_eq, foldl_intFilterAdd_eq]
      intro x hx
      simp only [Finset.empty_union, List.mem_toFinset, List.mem_map] at hx ⊢
      obtain ⟨s, hs, rfl⟩ := hx
      exact ⟨s, hmem s hs, rfl⟩
    have hstatsim : statsSimilarTo (.int ((a₀ :: va').foldl intStatsAdd intStatsInit))
        (.int ((b₀ :: vb').foldl intStatsAdd intStatsInit)) = some true := by
      simp only [statsSimilarTo, Option.some.injEq, Bool.and_eq_true, decide_eq_true_eq]
      exact ⟨hmin, hmax⟩
    have hfsim : filterSimilarTo (.int ((a₀ :: va').foldl (intFilterAdd 1000000) ∅))
        (.int ((b₀ :: vb').foldl (intFilterAdd 1000000) ∅)) = true := by
      simp only [filterSimilarTo, Filter.bitSet, decide_eq_true_eq,
        Finset.sdiff_eq_empty_iff_subset]
      exact hbits
    have hpsA : (profileColumn (a₀ :: va')).stats
        = some (.int ((a₀ :: va').foldl intStatsAdd intStatsInit)) := by
      simp [profileColumn, profileStats, hint]
    have hpsB : (profileColumn (b₀ :: vb')).stats
        = some (.int ((b₀ :: vb').foldl intStatsAdd intStatsInit)) := by
      simp [profileColumn, profileStats, hib]
    have hpfA : (profileColumn (a₀ :: va')).filter
        = some (.int ((a₀ :: va').foldl (intFilterAdd 1000000) ∅)) := by
      simp [profileColumn, profileFilter, hint]
    have hpfB : (profileColumn (b₀ :: vb')).filter
        = some (.int ((b₀ :: vb').foldl (intFilterAdd 1000000) ∅)) := by
      simp [profileColumn, profileFilter, hib]
    rw [colSimilarTo, if_pos htype, hpsA, hpsB]
    simp only [hstatsim, hpfA, hpfB, hfsim]
  · have hib : ¬ isInt b₀ = true := by
      intro hb
      exact hint ((inferType_eq_int a₀).mp (by rw [htype', (inferType_eq_int b₀).mpr hb]))
    have hminA := foldl_selLow_spec String.data a₀ va' hna
    have hminB := foldl_selLow_spec String.data b₀ vb' hnb
    have hmaxA := foldl_selHigh_spec String.data a₀ va' hna
    have hmaxB := foldl_selHigh_spec String.data b₀ vb' hnb
    have hshoA := foldl_selLow_spec byteLen a₀ va' hna
    have hshoB := foldl_selLow_spec byteLen b₀ vb' hnb
    have hlonA := foldl_selHigh_spec byteLen a₀ va' hna
    have hlonB := foldl_selHigh_spec byteLen b₀ vb' hnb
    have hmin : ((b₀ :: vb').foldl strStatsAdd strStatsInit).minimum.data
        ≤ ((a₀ :: va').foldl strStatsAdd strStatsInit).minimum.data := by
      rw [strFold_minimum, strFold_minimum]
      exact hminB.2 _ (hmem _ hminA.1)
    have hmax : ((a₀ :: va').foldl strStatsAdd strStatsInit).maximum.data
        ≤ ((b₀ :: vb').foldl strStatsAdd strStatsInit).maximum.data := by
      rw [strFold_maximum, strFold_maximum]
      exact hmaxB.2 _ (hmem _ hmaxA.1)
    have hsho : byteLen ((b₀ :: vb').foldl strStatsAdd strStatsInit).shortest
        ≤ byteLen ((a₀ :: va').foldl strStatsAdd strStatsInit).shortest := by
      rw [strFold_shortest, strFold_shortest]
      exact hshoB.2 _ (hmem _ hshoA.1)
    have hlon : byteLen ((a₀ :: va').foldl strStatsAdd strStatsInit).longest
        ≤ byteLen ((b₀ :: vb').foldl strStatsAdd strStatsInit).longest := by
      rw [strFold_longest, strFold_longest]
      exact hlonB.2 _ (hmem _ hlonA.1)
    have hbits : ((a₀ :: va').foldl (strFilterAdd 4 1000000) ∅ : Finset Nat)
        ⊆ (b₀ :: vb').foldl (strFilterAdd 4 1000000) ∅ := by
      rw [foldl_strFilterAdd_eq, foldl_strFilterAdd_eq]
      intro x hx
      simp only [Finset.empty_union, List.mem_toFinset, List.mem_flatMap] at hx ⊢
      obtain ⟨s, hs, hxs⟩ := hx
      exact ⟨s, hmem s hs, hxs⟩
    have hstatsim : statsSimilarTo (.str ((a₀ :: va').foldl strStatsAdd strStatsInit))
        (.str ((b₀ :: vb').foldl strStatsAdd strStatsInit)) = some true := by
      simp only [statsSimilarTo, Option.some.injEq, Bool.and_eq_true, decide_eq_true_eq]
      exact ⟨⟨⟨hmin, hmax⟩, hsho⟩, hlon⟩
    have hfsim : filterSimilarTo (.str ((a₀ :: va').foldl (strFilterAdd 4 1000000) ∅))
        (.str ((b₀ :: vb').foldl (strFilterAdd 4 1000000) ∅)) = true := by
      simp only [filterSimilarTo, Filter.bitSet, decide_eq_true_eq,
        Finset.sdiff_eq_empty_iff_subset]
      exact hbits
    have hpsA : (profileColumn (a₀ :: va')).stats
        = some (.str ((a₀ :: va').foldl strStatsAdd strStatsInit)) := by
      simp [profileColumn, profileStats, hint]
    have hpsB : (profileColumn (b₀ :: vb')).stats
        = some (.str ((b₀ :: vb').foldl strStatsAdd strStatsInit)) := by
      simp [profileColumn, profileStats, hib]
    have hpfA : (profileColumn (a₀ :: va')).filter
        = some (.str ((a₀ :: va').foldl (strFilterAdd 4 1000000) ∅)) := by
      simp [profileColumn, profileFilter, hint]
    have hpfB : (profileColumn (b₀ :: vb')).filter
        = some (.str ((b₀ :: vb').foldl (strFilterAdd 4 1000000) ∅)) := by
      simp [profileColumn, profileFilter, hib]
    rw [colSimilarTo, if_pos htype, hpsA, hpsB]
    simp only [hstatsim, hpfA, hpfB, hfsim]

/-- C3 witness: the amended theorem at the concrete string columns
`a = ["b"]`, `b = ["b", "c"]`. -/
theorem c3_sketch_no_false_negatives_witness :
    colSimilarTo (profileColumn ["b"]) (profileColumn ["b", "c"]) = some true :=
  c3_sketch_no_false_negatives ["b"] ["b", "c"] (by decide) (by decide)
    (by decide) (by decide) rfl (by decide)

/-- Embeds `bufio.Reader.ReadString('\n')` on the remaining file
contents: `some (line, rest)` with `line` up to and including the first
newline when one exists, and `none` when the delimiter is never found —
the case in which Go returns the partial data together with `err =
io.EOF`. -/
def splitAtNewline : List Char → Option (List Char × List Char)
  | [] => none
  | c :: rest =>
    if c = '\n' then some ([c], rest)
    else
      match splitAtNewline rest with
      | none => none
      | some (l, r) => some (c :: l, r)

/-- Embeds `strings.Trim(line, "\n")`: newlines stripped from both ends. -/
def trimNewlines (cs : List Char) : List Char :=
  ((cs.dropWhile (· = '\n')).reverse.dropWhile (· = '\n')).reverse

/-- Embeds `strings.Split(line, "\t")`: tab-separated fields, always at
least one (splitting the empty string yields `[""]`). -/
def splitFields : List Char → List String
  | [] => [""]
  | c :: rest =>
    match splitFields rest with
    | [] => [""]
    | f :: fs => if c = '\t' then "" :: f :: fs else String.mk (c :: f.data) :: fs

/-- Embeds `ReadRow`: when `ReadString` reports `io.EOF` the function
returns the nil field list at once — discarding any bytes that were read
— and otherwise trims and splits the line. -/
def readRow (input : List Char) : List String × List Char :=
  match splitAtNewline input with
  | none => ([], [])
  | some (line, rest) => (splitFields (trimNewlines line), rest)

/-- Splitting a field list is never empty. -/
theorem splitFields_ne_nil (cs : List Char) : splitFields cs ≠ [] := by
  cases cs with
  | nil => simp [splitFields]
  | cons c rest =>
    unfold splitFields
    match h : splitFields rest with
    | [] => simp
    | f :: fs => dsimp only; split <;> simp

/-- Consuming a line strictly shrinks the remaining input. -/
theorem splitAtNewline_length (cs : List Char) :
    ∀ l r, splitAtNewline cs = some (l, r) → r.length < cs.length := by
  induction cs with
  | nil => intro l r h; simp [splitAtNewline] at h
  | cons c rest ih =>
    intro l r h
    unfold splitAtNewline at h
    split at h
    · simp only [Option.some.injEq, Prod.mk.injEq] at h
      simp [← h.2]
    · match h' : splitAtNewline rest with
      | none => rw [h'] at h; simp at h
      | some (l', r') =>
        rw [h'] at h
        simp only [Option.some.injEq, Prod.mk.injEq] at h
        have := ih l' r' h'
        simp only [← h.2, List.length_cons]
        omega

/-- The sequence of rows the `Table.Analyze` (and `ReadTableMapping`)
loop processes: lines are read until `ReadRow` returns a nil field list,
which `splitFields_ne_nil` shows happens exactly at end of input — so
exactly the newline-terminated lines are turned into rows. -/
def rowsRead (input : List Char) : List (List String) :=
  match h : splitAtNewline input with
  | none => []
  | some (line, rest) =>
    have : rest.length < input.length := splitAtNewline_length input line rest h
    splitFields (trimNewlines line) :: rowsRead rest
  termination_by input.length

/-- Input without a newline makes `splitAtNewline` report end of file. -/
theorem splitAtNewline_eq_none (cs : List Char) (h : ∀ c ∈ cs, c ≠ '\n') :
    splitAtNewline cs = none := by
  induction cs with
  | nil => rfl
  | cons c rest ih =>
    unfold splitAtNewline
    rw [if_neg (h c (by simp)), ih (fun c hc => h c (by simp [hc]))]

/-- A found line is unaffected by appending more input. -/
theorem splitAtNewline_append (cs : List Char) :
    ∀ l r t, splitAtNewline cs = some (l, r) →
      splitAtNewline (cs ++ t) = some (l, r ++ t) := by
  induction cs with
  | nil => intro l r t h; simp [splitAtNewline] at h
  | cons c rest ih =>
    intro l r t h
    rw [List.cons_append]
    unfold splitAtNewline at h ⊢
    split at h
    next hc =>
      simp only [Option.some.injEq, Prod.mk.injEq] at h
      rw [if_pos hc]
      simp_all
    next hc =>
      rw [if_neg hc]
      match h' : splitAtNewline rest with
      | none => rw [h'] at h; simp at h
      | some (l', r') =>
        rw [h'] at h
        simp only [Option.some.injEq, Prod.mk.injEq] at h
        rw [ih l' r' t h']
        simp_all

/-- An input on which `splitAtNewline` reports end of file holds no
newline. -/
theorem splitAtNewline_none_no_newline (cs : List Char) :
    splitAtNewline cs = none → ∀ c ∈ cs, c ≠ '\n' := by
  induction cs with
  | nil => simp
  | cons d rest ih =>
    intro h
    unfold splitAtNewline at h
    split at h
    · simp at h
    next hd =>
      match h' : splitAtNewline rest with
      | some (l, r) => rw [h'] at h; simp at h
      | none =>
        intro c hc
        rcases List.mem_cons.mp hc with h1 | h1
        · subst h1; exact hd
        · exact ih h' c h1

/-- The EOF equation of the row loop. -/
theorem rowsRead_eq_nil (input : List Char) (h : splitAtNewline input = none) :
    rowsRead input = [] := by
  unfold rowsRead
  split
  · rfl
  next line rest h' => rw [h] at h'; exact absurd h' (by simp)

/-- The line-consuming equation of the row loop. -/
theorem rowsRead_eq_cons (input line rest : List Char)
    (h : splitAtNewline input = some (line, rest)) :
    rowsRead input = splitFields (trimNewlines line) :: rowsRead rest := by
  conv_lhs => rw [rowsRead.eq_def]
  split
  next h' => rw [h'] at h; exact absurd h (by simp)
  next l r h' =>
    rw [h] at h'
    injection h' with h''
    injection h'' with h1 h2
    subst h1
    subst h2
    rfl

/-- Appending newline-free bytes to the input changes nothing: the extra
bytes only lengthen the final unterminated line, which the EOF branch of
`ReadRow` discards. -/
theorem rowsRead_append (input tail : List Char) (htail : ∀ c ∈ tail, c ≠ '\n') :
    rowsRead (input ++ tail) = rowsRead input := by
  induction input using rowsRead.induct with
  | case1 input hnone =>
    have hin := splitAtNewline_none_no_newline input hnone
    have hall : ∀ c ∈ input ++ tail, c ≠ '\n' := by
      intro c hc
      rcases List.mem_append.mp hc with h | h
      · exact hin c h
      · exact htail c h
    rw [rowsRead_eq_nil _ (splitAtNewline_eq_none _ hall), rowsRead_eq_nil _ hnone]
  | case2 input line rest hsome hlen ih =>
    rw [rowsRead_eq_cons (input ++ tail) line (rest ++ tail)
          (splitAtNewline_append input line rest tail hsome),
        rowsRead_eq_cons input line rest hsome, ih]

/-- Dispatch of `Statistics.Add` through the interface. -/
def statsAdd : Stats → String → Stats
  | .int st, v => .int (intStatsAdd st v)
  | .str st, v => .str (strStatsAdd st v)

/-- Dispatch of `BloomFilter.Add` through the interface; `AnalyzeType`
always initializes the filters with `m = 1 000 000` and `k = 4`, so
those parameters are fixed here. -/
def filterAdd : Filter → String → Filter
  | .int bits, v => .int (intFilterAdd 1000000 bits v)
  | .str bits, v => .str (strFilterAdd 4 1000000 bits v)

/-- Dispatch of `Statistics.FinishAnalysis`: divide the running sum by
the row count.  Division is exact rational here where Go divides
`float64`s; no claim inspects the quotient. -/
def statsFinish (rowCount : Nat) : Stats → Stats
  | .int st => .int { st with average := st.average / (rowCount : ℚ) }
  | .str st => .str { st with averageLength := st.averageLength / (rowCount : ℚ) }

/-- A column as `Table.BuildColumns` creates it: empty `dataType`, nil
statistics and filter interfaces, empty value map. -/
def colInit : ColumnP := ⟨"", none, none, ∅⟩

/-- Embeds `Column.AnalyzeType`: fix the data type from the first value
and allocate the matching statistics and filter variants. -/
def analyzeTypeCol (c : ColumnP) (v : String) : ColumnP :=
  if isInt v then
    { c with dataType := "int", stats := some (.int intStatsInit), filter := some (.int ∅) }
  else if isFloat v then
    { c with dataType := "float", stats := some (.str strStatsInit), filter := some (.str ∅) }
  else
    { c with dataType := "string", stats := some (.str strStatsInit), filter := some (.str ∅) }

/-- One column's share of a row in `Table.Analyze`: on the first row run
`AnalyzeType`, then `stats.Add`, `filter.Add` and the value-set insert.
The error case models the Go panic of calling a method on a nil
interface (unreachable from `Analyze`, whose first row initializes
both). -/
def ingestValue (c : ColumnP) (v : String) (first : Bool) : Except String ColumnP :=
  let c := if first then analyzeTypeCol c v else c
  match c.stats, c.filter with
  | some st, some f =>
    .ok { c with stats := some (statsAdd st v), filter := some (filterAdd f v),
                 values := insert v c.values }
  | _, _ => .error "runtime panic: Add on nil interface"

/-- One row of `Table.Analyze`: dispatch `row[columnIndex]` to each
column in order; a row shorter than the column list panics with an
index-out-of-range runtime error. -/
def ingestRow (cols : List ColumnP) (row : List String) (first : Bool) :
    Except String (List ColumnP) :=
  cols.enum.mapM fun ic =>
    match row.get? ic.1 with
    | none => .error "runtime panic: index out of range"
    | some v => ingestValue ic.2 v first

/-- The row loop of `Table.Analyze` over an already-read row list,
threading the `rowCount == 0` first-row flag. -/
def analyzeRows (cols : List ColumnP) : List (List String) → Bool → Except String (List ColumnP)
  | [], _ => .ok cols
  | row :: rows, first => do
    let cols' ← ingestRow cols row first
    analyzeRows cols' rows false

/-- The per-column epilogue of `Table.Analyze`:
`column.stats.FinishAnalysis(rowCount)`.  When the column never saw a
row its `stats` interface is still nil and the method call panics. -/
def finishCol (rowCount : Nat) (c : ColumnP) : Except String ColumnP :=
  match c.stats with
  | none => .error "runtime panic: FinishAnalysis on nil Statistics interface"
  | some st => .ok { c with stats := some (statsFinish rowCount st) }

/-- Embeds `Table.Analyze` for a table of `w` columns whose file holds
the byte sequence `input`: read rows until `ReadRow` returns no fields,
ingest each row, then finish every column's statistics. -/
def analyzeTable (w : Nat) (input : List Char) : Except String (List ColumnP) := do
  let rows := rowsRead input
  let cols ← analyzeRows (List.replicate w colInit) rows true
  cols.mapM (finishCol rows.length)

/-- C10: a final line not terminated by a newline is silently discarded.
`ReadRow` answers the nil field list as soon as `ReadString` reports
EOF, even if bytes were read, so appending a newline-free tail to any
input changes neither the rows read nor any column data `Table.Analyze`
derives from them — the tail's values are never ingested into
statistics, filters, or value sets. -/
theorem c10_unterminated_last_line (w : Nat) (input tail : List Char)
    (htail : ∀ c ∈ tail, c ≠ '\n') :
    (readRow tail).1 = []
    ∧ rowsRead (input ++ tail) = rowsRead input
    ∧ analyzeTable w (input ++ tail) = analyzeTable w input := by
  have hrows := rowsRead_append input tail htail
  refine ⟨?_, hrows, ?_⟩
  · unfold readRow
    rw [splitAtNewline_eq_none tail htail]
  · unfold analyzeTable
    rw [hrows]

/-- C10 witness: the theorem at the single-column input `"a\nbc"` — the
trailing `"bc"` is dropped and analysis matches that of `"a\n"`. -/
theorem c10_unterminated_last_line_witness :
    (readRow "bc".data).1 = []
    ∧ rowsRead ("a\n".data ++ "bc".data) = rowsRead "a\n".data
    ∧ analyzeTable 1 ("a\n".data ++ "bc".data) = analyzeTable 1 "a\n".data :=
  c10_unterminated_last_line 1 "a\n".data "bc".data (by decide)

/-- C5 (code bug): the claim — and the spec's "verify behavior is
graceful" — say `Table.Analyze` returns normally on a table file with no
data rows, leaving `dataType = ""` and absent stats/filter.  The code
instead panics: with zero rows no column's `AnalyzeType` ever runs, so
the epilogue calls `FinishAnalysis` on a nil `Statistics` interface.
Evaluated at a one-column table with empty file contents. -/
theorem c5_empty_table_not_graceful :
    rowsRead [] = []
    ∧ analyzeTable 1 []
        = .error "runtime panic: FinishAnalysis on nil Statistics interface" := by
  have h0 : rowsRead ([] : List Char) = [] := rowsRead_eq_nil [] rfl
  constructor
  · exact h0
  · unfold analyzeTable
    rw [h0]
    rfl

/-- The mutable state of the verification phase over `n` globally
indexed columns: the `InclusionGraph`'s dense boolean adjacency matrix
(`adj i j` meaning `i ⊆ j`) and every column's remaining candidate set.
Candidate maps (`map[*Column]bool` in Go, with entries only ever set to
`true` and removed by `delete`) are finite sets of column indices. -/
structure GState (n : Nat) where
  adj : Fin n → Fin n → Bool
  cand : Fin n → Finset (Fin n)

/-- The paired mutation `iConnectedTo[j] = true` plus
`delete(this.nodes[i].candidates, this.nodes[j])` from
`InclusionGraph.Add`, for row `i` and column `j`. -/
def setEdge (i j : Fin n) (s : GState n) : GState n :=
  { adj := fun p q => if p = i ∧ q = j then true else s.adj p q,
    cand := fun p => if p = i then (s.cand p).erase j else s.cand p }

/-- The inner loop of `InclusionGraph.Add` for row `i`: walk the columns
`c` in order and copy every bit currently set in row `b` into row `i`,
deleting the corresponding candidates.  Row `b` is read live, exactly as
the Go loop reads the possibly already-mutated matrix. -/
def addInner (b i : Fin n) (s : GState n) : GState n :=
  (List.finRange n).foldl (fun u c => if u.adj b c then setEdge i c u else u) s

/-- One outer-loop iteration of `InclusionGraph.Add`: if row `i` reaches
`a`, connect it to `b` and to everything row `b` currently reaches. -/
def addRow (a b : Fin n) (t : GState n) (i : Fin n) : GState n :=
  if t.adj i a then addInner b i (setEdge i b t) else t

/-- Embeds `InclusionGraph.Add` on the candidate edge `a ⊆ b`: the outer
loop over all rows in index order. -/
def graphAdd (a b : Fin n) (s : GState n) : GState n :=
  (List.finRange n).foldl (addRow a b) s

/-- The adjacency matrix built by `Database.ToInclusionGraph`: only the
diagonal is `true`. -/
def initGraph (n : Nat) (cand₀ : Fin n → Finset (Fin n)) : GState n :=
  { adj := fun p q => decide (p = q), cand := cand₀ }

/-- Embeds `Database.Check`: iterate the keys of `a.values` and test
each for membership in `b.values`. -/
def checkCand (values : Fin n → Finset String) (a b : Fin n) : Bool :=
  decide (∀ v ∈ values a, v ∈ values b)

/-- The nested scan of `Database.NextCandidate`: both loops range over
the same sorted column slice; return the first pair `(column,
candidate)` with `column.candidates[candidate] = true`. -/
def findPair (s : GState n) (cols : List (Fin n)) : Option (Fin n × Fin n) :=
  cols.findSome? fun c =>
    cols.findSome? fun d => if d ∈ s.cand c then some (c, d) else none

/-- Embeds `Database.NextCandidate` given the column order `sorted`
produced by `sort.Sort(ByMostCandidates(columns))`: find the first live
pair in scan order, delete the candidate from its column's set, and
return it with the updated state; `none` when no live pair exists. -/
def nextCandidate (sorted : List (Fin n)) (s : GState n) : Option (Fin n × Fin n × GState n) :=
  match findPair s sorted with
  | none => none
  | some (c, d) =>
    some (c, d, { s with cand := fun p => if p = c then (s.cand c).erase d else s.cand p })

/-- The flattened scan order of `findPair`: all pairs of sorted columns,
row-major. -/
def pairScan (cols : List (Fin n)) : List (Fin n × Fin n) :=
  cols.flatMap fun c => cols.map fun d => (c, d)

/-- One iteration of the driver loop in `main`: draw the next candidate;
if none the loop breaks (`none`), otherwise verify it against the
materialized value sets and add it to the graph when verification
succeeds. -/
def loopStep (values : Fin n → Finset String) (sorted : List (Fin n)) (s : GState n) :
    Option (GState n) :=
  match nextCandidate sorted s with
  | none => none
  | some (c, d, s') => some (if checkCand values c d then graphAdd c d s' else s')

/-- `k` iterations of the driver loop, with `oracle j` the column order
the `j`-th `sort.Sort` call produces (Go's sort fixes the relative order
of columns with distinct candidate counts but not of ties, so the order
is supplied externally). -/
def driverRun (values : Fin n → Finset String) (oracle : Nat → List (Fin n)) :
    Nat → GState n → GState n
  | 0, s => s
  | k + 1, s =>
    match loopStep values (oracle k) s with
    | none => s
    | some s' => driverRun values oracle k s'

/-- The total number of remaining candidates, `Σ_c |c.candidates|`. -/
def totalCand (s : GState n) : Nat :=
  Finset.univ.sum fun c => (s.cand c).card

/-- Effect of the inner loop of `InclusionGraph.Add` over an arbitrary
column list: given that row `b` reads as `F` throughout (which `setEdge
i c` writes can only confirm, never change), the fold sets row `i` at
the scanned columns where `F` holds and deletes exactly those columns
from `cand i`. -/
theorem addInner_fold_spec (b i : Fin n) (F : Fin n → Bool) :
    ∀ (L : List (Fin n)) (t : GState n), (∀ c, t.adj b c = F c) →
      (∀ p q,
        ((L.foldl (fun u c => if u.adj b c then setEdge i c u else u) t).adj p q = true
          ↔ (t.adj p q = true ∨ (p = i ∧ q ∈ L ∧ F q = true))))
      ∧ (∀ p, (L.foldl (fun u c => if u.adj b c then setEdge i c u else u) t).cand p
          = if p = i then (t.cand p).filter (fun q => ¬(q ∈ L ∧ F q = true)) else t.cand p) := by
  intro L
  induction L with
  | nil =>
    intro t hF
    refine ⟨fun p q => by simp, fun p => ?_⟩
    simp
  | cons c L ih =>
    intro t hF
    rw [List.foldl_cons]
    cases hc : F c with
    | false =>
      have ht : t.adj b c = false := by rw [hF, hc]
      rw [if_neg (by simp [ht])]
      obtain ⟨iha, ihc⟩ := ih t hF
      refine ⟨fun p q => ?_, fun p => ?_⟩
      · rw [iha p q]
        constructor
        · rintro (h | ⟨h1, h2, h3⟩)
          · exact Or.inl h
          · exact Or.inr ⟨h1, List.mem_cons_of_mem c h2, h3⟩
        · rintro (h | ⟨h1, h2, h3⟩)
          · exact Or.inl h
          · rcases List.mem_cons.mp h2 with h2 | h2
            · subst h2; rw [hc] at h3; exact absurd h3 (by simp)
            · exact Or.inr ⟨h1, h2, h3⟩
      · rw [ihc p]
        split
        · apply Finset.filter_congr
          intro q _
          constructor
          · rintro h ⟨h2, h3⟩
            rcases List.mem_cons.mp h2 with h2 | h2
            · subst h2; rw [hc] at h3; exact absurd h3 (by simp)
            · exact h ⟨h2, h3⟩
          · rintro h ⟨h2, h3⟩
            exact h ⟨List.mem_cons_of_mem c h2, h3⟩
        · rfl
    | true =>
      have ht : t.adj b c = true := by rw [hF, hc]
      rw [if_pos ht]
      have hF' : ∀ c', (setEdge i c t).adj b c' = F c' := by
        intro c'
        unfold setEdge
        dsimp only
        split
        next h => rw [h.2, hc]
        next => exact hF c'
      obtain ⟨iha, ihc⟩ := ih (setEdge i c t) hF'
      refine ⟨fun p q => ?_, fun p => ?_⟩
      · rw [iha p q]
        unfold setEdge
        dsimp only
        constructor
        · rintro (h | ⟨h1, h2, h3⟩)
          · split at h
            next h' => exact Or.inr ⟨h'.1, h'.2 ▸ List.mem_cons_self c L, h'.2 ▸ hc⟩
            next => exact Or.inl h
          · exact Or.inr ⟨h1, List.mem_cons_of_mem c h2, h3⟩
        · rintro (h | ⟨h1, h2, h3⟩)
          · left
            split
            · rfl
            · exact h
          · rcases List.mem_cons.mp h2 with h2 | h2
            · subst h2
              subst h1
              left
              rw [if_pos ⟨rfl, rfl⟩]
            · exact Or.inr ⟨h1, h2, h3⟩
      · rw [ihc p]
        unfold setEdge
        dsimp only
        by_cases hp : p = i
        · rw [if_pos hp, if_pos hp, if_pos hp]
          ext q
          simp only [Finset.mem_filter, Finset.mem_erase]
          constructor
          · rintro ⟨⟨hqc, hq⟩, hnot⟩
            refine ⟨hq, ?_⟩
            rintro ⟨h2, h3⟩
            rcases List.mem_cons.mp h2 with h2 | h2
            · exact hqc h2
            · exact hnot ⟨h2, h3⟩
          · rintro ⟨hq, hnot⟩
            have hqc : q ≠ c := by
              rintro rfl
              exact hnot ⟨by simp, hc⟩
            refine ⟨⟨hqc, hq⟩, ?_⟩
            rintro ⟨h2, h3⟩
            exact hnot ⟨List.mem_cons_of_mem c h2, h3⟩
        · rw [if_neg hp, if_neg hp, if_neg hp]

/-- Membership in the adjacency matrix after a `setEdge` write. -/
theorem setEdge_adj (s : GState n) (i j p q : Fin n) :
    ((setEdge i j s).adj p q = true ↔ ((p = i ∧ q = j) ∨ s.adj p q = true)) := by
  unfold setEdge
  dsimp only
  split
  next h => simp [h]
  next h => simp [h]

/-- The candidate sets after a `setEdge` write. -/
theorem setEdge_cand (s : GState n) (i j p : Fin n) :
    (setEdge i j s).cand p = if p = i then (s.cand p).erase j else s.cand p := rfl

/-- Effect of one outer-loop iteration of `InclusionGraph.Add` on row
`i`: when row `i` reaches `a` it additionally reaches `b` and all of row
`b`, and exactly those columns leave `cand i`; all other rows and
candidate sets are untouched. -/
theorem addRow_spec (a b : Fin n) (t : GState n) (i : Fin n) :
    (∀ p q, ((addRow a b t i).adj p q = true
        ↔ (t.adj p q = true ∨ (p = i ∧ t.adj i a = true ∧ (q = b ∨ t.adj b q = true)))))
    ∧ (∀ p, (addRow a b t i).cand p
        = if p = i ∧ t.adj i a = true
          then (t.cand p).filter (fun q => ¬(q = b ∨ t.adj b q = true))
          else t.cand p) := by
  unfold addRow addInner
  by_cases hia : t.adj i a = true
  · rw [if_pos hia]
    obtain ⟨iha, ihc⟩ := addInner_fold_spec b i (fun c => (setEdge i b t).adj b c)
      (List.finRange n) (setEdge i b t) (fun c => rfl)
    constructor
    · intro p q
      rw [iha p q, setEdge_adj, setEdge_adj]
      simp only [List.mem_finRange, true_and]
      tauto
    · intro p
      rw [ihc p]
      by_cases hp : p = i
      · rw [if_pos hp, if_pos ⟨hp, hia⟩, setEdge_cand, if_pos hp]
        ext q
        simp only [Finset.mem_filter, Finset.mem_erase, List.mem_finRange, true_and]
        rw [setEdge_adj]
        constructor
        · rintro ⟨⟨hqb, hq⟩, hnot⟩
          refine ⟨hq, ?_⟩
          rintro (h | h)
          · exact hqb h
          · exact hnot (Or.inr h)
        · rintro ⟨hq, hnot⟩
          have hqb : q ≠ b := fun h => hnot (Or.inl h)
          refine ⟨⟨hqb, hq⟩, ?_⟩
          rintro (⟨h1, h2⟩ | h)
          · exact hqb h2
          · exact hnot (Or.inr h)
      · rw [if_neg hp, if_neg (by rintro ⟨h, _⟩; exact hp h), setEdge_cand, if_neg hp]
  · rw [if_neg hia]
    constructor
    · intro p q
      constructor
      · exact fun h => Or.inl h
      · rintro (h | ⟨_, h, _⟩)
        · exact h
        · exact absurd h hia
    · intro p
      rw [if_neg]
      rintro ⟨_, h⟩
      exact hia h

/-- The net effect of `InclusionGraph.Add (a, b)` on the adjacency
matrix, in terms of the state before the call: row `p` gains column `q`
exactly when `p` reached `a` and `q` is `b` or reached from `b`. -/
def addAdjT (s : GState n) (a b p q : Fin n) : Prop :=
  s.adj p q = true ∨ (s.adj p a = true ∧ (q = b ∨ s.adj b q = true))

/-- The net effect of `InclusionGraph.Add (a, b)` on the candidate sets:
every row that reached `a` loses `b` and everything row `b` reached. -/
def addCandT (s : GState n) (a b : Fin n) (p : Fin n) : Finset (Fin n) :=
  if s.adj p a = true
  then (s.cand p).filter (fun q => ¬(q = b ∨ s.adj b q = true))
  else s.cand p

/-- Effect of the outer loop of `InclusionGraph.Add` over any
duplicate-free suffix of rows, given that the already-processed rows
carry their final values and the pending ones their initial values.  The
key point is that whether row `b` was already processed or not, the
row-`b` bits a pending row copies are, up to bits it sets anyway, those
of the initial state. -/
theorem graphAdd_fold_spec (a b : Fin n) (s : GState n) :
    ∀ (L : List (Fin n)) (t : GState n), L.Nodup →
      (∀ p, p ∈ L → (∀ q, (t.adj p q = true ↔ s.adj p q = true)) ∧ t.cand p = s.cand p) →
      (∀ p, p ∉ L → (∀ q, (t.adj p q = true ↔ addAdjT s a b p q)) ∧ t.cand p = addCandT s a b p) →
      ∀ p, (∀ q, ((L.foldl (addRow a b) t).adj p q = true ↔ addAdjT s a b p q))
           ∧ (L.foldl (addRow a b) t).cand p = addCandT s a b p := by
  intro L
  induction L with
  | nil =>
    intro t _ _ hdone p
    exact hdone p (by simp)
  | cons i L ih =>
    intro t hnd hprist hdone
    rw [List.foldl_cons]
    have hiL : i ∉ L := (List.nodup_cons.mp hnd).1
    have hndL : L.Nodup := (List.nodup_cons.mp hnd).2
    have hpi := hprist i (by simp)
    have hb_lo : ∀ q, s.adj b q = true → t.adj b q = true := by
      intro q hq
      by_cases hbL : b ∈ i :: L
      · exact (hprist b hbL).1 q |>.mpr hq
      · exact (hdone b hbL).1 q |>.mpr (Or.inl hq)
    have hb_up : ∀ q, t.adj b q = true → (q = b ∧ s.adj b a = true) ∨ s.adj b q = true := by
      intro q hq
      by_cases hbL : b ∈ i :: L
      · exact Or.inr ((hprist b hbL).1 q |>.mp hq)
      · rcases (hdone b hbL).1 q |>.mp hq with h | ⟨h1, h2 | h2⟩
        · exact Or.inr h
        · exact Or.inl ⟨h2, h1⟩
        · exact Or.inr h2
    have hb_pred : ∀ q, ((q = b ∨ t.adj b q = true) ↔ (q = b ∨ s.adj b q = true)) := by
      intro q
      constructor
      · rintro (h | h)
        · exact Or.inl h
        · rcases hb_up q h with ⟨h1, _⟩ | h1
          · exact Or.inl h1
          · exact Or.inr h1
      · rintro (h | h)
        · exact Or.inl h
        · exact Or.inr (hb_lo q h)
    obtain ⟨rowadj, rowcand⟩ := addRow_spec a b t i
    refine ih (addRow a b t i) hndL ?_ ?_
    · intro p hp
      have hpne : p ≠ i := fun h => hiL (h ▸ hp)
      have hpp := hprist p (by simp [hp])
      refine ⟨fun q => ?_, ?_⟩
      · rw [rowadj p q]
        constructor
        · rintro (h | ⟨h1, _⟩)
          · exact (hpp.1 q).mp h
          · exact absurd h1 hpne
        · exact fun h => Or.inl ((hpp.1 q).mpr h)
      · rw [rowcand p, if_neg (by rintro ⟨h1, _⟩; exact hpne h1)]
        exact hpp.2
    · intro p hp
      by_cases hpi' : p = i
      · subst hpi'
        refine ⟨fun q => ?_, ?_⟩
        · rw [rowadj p q]
          unfold addAdjT
          constructor
          · rintro (h | ⟨_, h2, h3 | h3⟩)
            · exact Or.inl ((hpi.1 q).mp h)
            · exact Or.inr ⟨(hpi.1 a).mp h2, Or.inl h3⟩
            · rcases hb_up q h3 with ⟨h4, _⟩ | h4
              · exact Or.inr ⟨(hpi.1 a).mp h2, Or.inl h4⟩
              · exact Or.inr ⟨(hpi.1 a).mp h2, Or.inr h4⟩
          · rintro (h | ⟨h1, h2⟩)
            · exact Or.inl ((hpi.1 q).mpr h)
            · refine Or.inr ⟨rfl, (hpi.1 a).mpr h1, ?_⟩
              rcases h2 with h2 | h2
              · exact Or.inl h2
              · exact Or.inr (hb_lo q h2)
        · rw [rowcand p]
          unfold addCandT
          by_cases hsa : s.adj p a = true
          · rw [if_pos ⟨rfl, (hpi.1 a).mpr hsa⟩, if_pos hsa, hpi.2]
            exact Finset.filter_congr fun q _ => not_congr (hb_pred q)
          · rw [if_neg (by rintro ⟨_, h2⟩; exact hsa ((hpi.1 a).mp h2)), if_neg hsa]
            exact hpi.2
      · have hpd := hdone p (by simp [hpi', hp])
        refine ⟨fun q => ?_, ?_⟩
        · rw [rowadj p q]
          constructor
          · rintro (h | ⟨h1, _⟩)
            · exact (hpd.1 q).mp h
            · exact absurd h1 hpi'
          · exact fun h => Or.inl ((hpd.1 q).mpr h)
        · rw [rowcand p, if_neg (by rintro ⟨h1, _⟩; exact hpi' h1)]
          exact hpd.2

/-- Characterization of the adjacency matrix after `InclusionGraph.Add`. -/
theorem graphAdd_adj_iff (a b : Fin n) (s : GState n) (p q : Fin n) :
    ((graphAdd a b s).adj p q = true ↔ addAdjT s a b p q) :=
  (graphAdd_fold_spec a b s (List.finRange n) s (List.nodup_finRange n)
    (fun _ _ => ⟨fun _ => Iff.rfl, rfl⟩)
    (fun p hp => absurd (List.mem_finRange p) hp) p).1 q

/-- Characterization of the candidate sets after `InclusionGraph.Add`. -/
theorem graphAdd_cand_eq (a b : Fin n) (s : GState n) (p : Fin n) :
    (graphAdd a b s).cand p = addCandT s a b p :=
  (graphAdd_fold_spec a b s (List.finRange n) s (List.nodup_finRange n)
    (fun _ _ => ⟨fun _ => Iff.rfl, rfl⟩)
    (fun p hp => absurd (List.mem_finRange p) hp) p).2

/-- Reflexivity and transitive closedness of the adjacency matrix. -/
def ClosedRefl (s : GState n) : Prop :=
  (∀ i, s.adj i i = true)
  ∧ (∀ i j k, s.adj i j = true → s.adj j k = true → s.adj i k = true)

/-- `InclusionGraph.Add` preserves reflexivity and transitive
closedness. -/
theorem closedRefl_graphAdd (a b : Fin n) (s : GState n) (h : ClosedRefl s) :
    ClosedRefl (graphAdd a b s) := by
  obtain ⟨hrefl, htrans⟩ := h
  constructor
  · intro i
    exact (graphAdd_adj_iff a b s i i).mpr (Or.inl (hrefl i))
  · intro i j k hij hjk
    rw [graphAdd_adj_iff] at hij hjk ⊢
    rcases hij with hij | ⟨hia, hj⟩
    · rcases hjk with hjk | ⟨hja, hk⟩
      · exact Or.inl (htrans i j k hij hjk)
      · exact Or.inr ⟨htrans i j a hij hja, hk⟩
    · rcases hjk with hjk | ⟨hja, hk⟩
      · rcases hj with hj | hj
        · subst hj
          exact Or.inr ⟨hia, Or.inr hjk⟩
        · exact Or.inr ⟨hia, Or.inr (htrans b j k hj hjk)⟩
      · exact Or.inr ⟨hia, hk⟩

/-- The graph built by `Database.ToInclusionGraph` is reflexive and
transitively closed. -/
theorem closedRefl_initGraph (n : Nat) (cand₀ : Fin n → Finset (Fin n)) :
    ClosedRefl (initGraph n cand₀) := by
  constructor
  · intro i
    simp [initGraph]
  · intro i j k hij hjk
    simp only [initGraph, decide_eq_true_eq] at hij hjk ⊢
    omega

/-- C2: starting from the graph built by `ToInclusionGraph` (adjacency
with only the diagonal true), after every sequence of
`InclusionGraph.Add` calls the adjacency matrix is reflexive and
transitively closed. -/
theorem c2_closure_invariant (n : Nat) (cand₀ : Fin n → Finset (Fin n))
    (es : List (Fin n × Fin n)) :
    (∀ i, (es.foldl (fun t e => graphAdd e.1 e.2 t) (initGraph n cand₀)).adj i i = true)
    ∧ (∀ i j k,
        (es.foldl (fun t e => graphAdd e.1 e.2 t) (initGraph n cand₀)).adj i j = true →
        (es.foldl (fun t e => graphAdd e.1 e.2 t) (initGraph n cand₀)).adj j k = true →
        (es.foldl (fun t e => graphAdd e.1 e.2 t) (initGraph n cand₀)).adj i k = true) := by
  suffices h : ∀ (es : List (Fin n × Fin n)) (s : GState n), ClosedRefl s →
      ClosedRefl (es.foldl (fun t e => graphAdd e.1 e.2 t) s) by
    obtain ⟨h1, h2⟩ := h es (initGraph n cand₀) (closedRefl_initGraph n cand₀)
    exact ⟨h1, h2⟩
  intro es
  induction es with
  | nil => exact fun s hs => hs
  | cons e es ih =>
    intro s hs
    exact ih (graphAdd e.1 e.2 s) (closedRefl_graphAdd e.1 e.2 s hs)

/-- C2 witness: the invariant after adding the edge `(0, 1)` on two
columns — in particular transitivity applied at the concrete entries. -/
theorem c2_closure_invariant_witness :
    ([((0 : Fin 2), (1 : Fin 2))].foldl (fun t e => graphAdd e.1 e.2 t)
        (initGraph 2 fun _ => ∅)).adj 0 1 = true :=
  (c2_closure_invariant 2 (fun _ => ∅) [(0, 1)]).2 0 0 1 (by decide) (by decide)

/-- C8: on a reflexive, transitively closed matrix that already contains
the edge `(a, b)`, with every candidate entry whose implied edge is
present already deleted, `InclusionGraph.Add (a, b)` changes neither the
adjacency matrix nor any candidate set. -/
theorem c8_implied_edge_noop (n : Nat) (s : GState n) (a b : Fin n)
    (hrefl : ∀ i, s.adj i i = true)
    (htrans : ∀ i j k, s.adj i j = true → s.adj j k = true → s.adj i k = true)
    (hab : s.adj a b = true)
    (hclean : ∀ i j, s.adj i j = true → j ∉ s.cand i) :
    (∀ p q, (graphAdd a b s).adj p q = s.adj p q)
    ∧ (∀ p, (graphAdd a b s).cand p = s.cand p) := by
  constructor
  · intro p q
    have hiff : ((graphAdd a b s).adj p q = true ↔ s.adj p q = true) := by
      rw [graphAdd_adj_iff]
      constructor
      · rintro (h | ⟨hpa, h | h⟩)
        · exact h
        · exact h ▸ htrans p a b hpa hab
        · exact htrans p b q (htrans p a b hpa hab) h
      · exact fun h => Or.inl h
    cases h1 : (graphAdd a b s).adj p q <;> cases h2 : s.adj p q
    · rfl
    · exact absurd (hiff.mpr h2) (by rw [h1]; simp)
    · exact absurd (hiff.mp h1) (by rw [h2]; simp)
    · rfl
  · intro p
    rw [graphAdd_cand_eq]
    unfold addCandT
    split
    next hpa =>
      apply Finset.filter_true_of_mem
      intro q hq
      rintro (h | h)
      · exact hclean p b (htrans p a b hpa hab) (h ▸ hq)
      · exact hclean p q (htrans p b q (htrans p a b hpa hab) h) hq
    next => rfl

/-- C8 witness: adding the diagonal edge `(0, 0)` on the fresh
one-column graph is a no-op on the matrix and the (empty) candidate
set. -/
theorem c8_implied_edge_noop_witness :
    (graphAdd (0 : Fin 1) 0 (initGraph 1 fun _ => ∅)).adj 0 0
        = (initGraph 1 fun _ => ∅).adj 0 0
    ∧ (graphAdd (0 : Fin 1) 0 (initGraph 1 fun _ => ∅)).cand 0
        = (initGraph 1 fun _ => ∅).cand 0 :=
  ⟨(c8_implied_edge_noop 1 (initGraph 1 fun _ => ∅) 0 0 (by decide)
      (by decide) (by decide) (by decide)).1 0 0,
   (c8_implied_edge_noop 1 (initGraph 1 fun _ => ∅) 0 0 (by decide)
      (by decide) (by decide) (by decide)).2 0⟩

/-- The inner candidate scan over one column is the `find?` over that
column's pairs. -/
theorem findSome?_inner_eq_find? (s : GState n) (c : Fin n) (ds : List (Fin n)) :
    (ds.findSome? fun d => if d ∈ s.cand c then some (c, d) else none)
      = (ds.map fun d => (c, d)).find? (fun p => decide (p.2 ∈ s.cand p.1)) := by
  induction ds with
  | nil => rfl
  | cons d ds ih =>
    rw [List.findSome?_cons, List.map_cons, List.find?_cons]
    by_cases hd : d ∈ s.cand c
    · simp [hd]
    · have hd' : decide (d ∈ s.cand c) = false := by simpa using hd
      simp only [if_neg hd, hd']
      exact ih

/-- `find?` distributes over list append. -/
theorem find?_append_cases (p : α → Bool) :
    ∀ (l₁ l₂ : List α), (l₁ ++ l₂).find? p
      = match l₁.find? p with
        | some a => some a
        | none => l₂.find? p := by
  intro l₁ l₂
  induction l₁ with
  | nil => rfl
  | cons a l₁ ih =>
    rw [List.cons_append, List.find?_cons, List.find?_cons]
    by_cases ha : p a = true
    · simp [ha]
    · have ha' : p a = false := by simpa using ha
      simp only [ha']
      exact ih

/-- The nested scan of `NextCandidate` equals the first satisfying pair
of the row-major pair list. -/
theorem findPair_eq_find? (s : GState n) (cols : List (Fin n)) :
    findPair s cols = (pairScan cols).find? (fun p => decide (p.2 ∈ s.cand p.1)) := by
  unfold findPair pairScan
  suffices h : ∀ outer : List (Fin n),
      (outer.findSome? fun c => cols.findSome? fun d => if d ∈ s.cand c then some (c, d) else none)
        = (outer.flatMap fun c => cols.map fun d => (c, d)).find?
            (fun p => decide (p.2 ∈ s.cand p.1)) from h cols
  intro outer
  induction outer with
  | nil => rfl
  | cons c outer ih =>
    rw [List.findSome?_cons, List.flatMap_cons, find?_append_cases,
      ← findSome?_inner_eq_find? s c cols]
    match h : cols.findSome? fun d => if d ∈ s.cand c then some (c, d) else none with
    | some r => rfl
    | none => exact ih

/-- A successful `find?` yields the first satisfying element: the list
splits around it with every earlier element failing the test. -/
theorem find?_eq_some_split (p : α → Bool) :
    ∀ (l : List α) (a : α), l.find? p = some a →
      p a = true ∧ ∃ pre post, l = pre ++ a :: post ∧ ∀ x ∈ pre, p x = false := by
  intro l
  induction l with
  | nil => intro a h; simp at h
  | cons b l ih =>
    intro a h
    rw [List.find?_cons] at h
    by_cases hb : p b = true
    · rw [hb] at h
      injection h with h
      subst h
      exact ⟨hb, [], l, rfl, by simp⟩
    · have hb' : p b = false := by simpa using hb
      rw [hb'] at h
      obtain ⟨hpa, pre, post, hsplit, hpre⟩ := ih a h
      refine ⟨hpa, b :: pre, post, by rw [hsplit, List.cons_append], ?_⟩
      intro x hx
      rcases List.mem_cons.mp hx with hx | hx
      · subst hx; simpa using hb
      · exact hpre x hx

/-- Destructor for a successful `NextCandidate` call: the scan found the
pair and only the returning column's candidate set shrank. -/
theorem nextCandidate_some_spec (sorted : List (Fin n)) (s : GState n)
    (c d : Fin n) (s' : GState n) (h : nextCandidate sorted s = some (c, d, s')) :
    findPair s sorted = some (c, d)
    ∧ s'.adj = s.adj
    ∧ s'.cand = fun p => if p = c then (s.cand c).erase d else s.cand p := by
  unfold nextCandidate at h
  match hf : findPair s sorted with
  | none => rw [hf] at h; exact absurd h (by simp)
  | some (c', d') =>
    rw [hf] at h
    simp only [Option.some.injEq, Prod.mk.injEq] at h
    obtain ⟨h1, h2, h3⟩ := h
    subst h1
    subst h2
    rw [← h3]
    exact ⟨rfl, rfl, rfl⟩

/-- A found pair is a live candidate. -/
theorem findPair_some_mem (sorted : List (Fin n)) (s : GState n) (c d : Fin n)
    (h : findPair s sorted = some (c, d)) : d ∈ s.cand c := by
  rw [findPair_eq_find?] at h
  have := (find?_eq_some_split _ (pairScan sorted) (c, d) h).1
  simpa using this

/-- An exhausted scan means no live pair among the scanned columns. -/
theorem findPair_none_iff (sorted : List (Fin n)) (s : GState n) :
    (findPair s sorted = none ↔ ∀ x ∈ pairScan sorted, x.2 ∉ s.cand x.1) := by
  rw [findPair_eq_find?, List.find?_eq_none]
  constructor
  · intro h x hx hmem
    exact h x hx (by simpa using hmem)
  · intro h x hx
    simpa using h x hx

/-- C6 (counterexample): the claim's "stable on ties by current
position" over-describes the code.  `sort.Sort` is documented as not
stable, so its contract fixes nothing between tied columns.  On the
two-column state whose candidate sets both have size one (the columns
are tied), the order `[1, 0]` satisfies everything the code's sort call
guarantees of its output — it is a permutation of the columns,
non-increasing in candidate count — just as well as `[0, 1]`, which on
this all-tied state is the stable descending order by current position
that the claim prescribes.  Yet the scan over `[1, 0]` returns the pair
`(1, 1)` whereas the claimed order's scan returns `(0, 0)`: the
program's output is not determined to be the claimed stable-order scan. -/
theorem c6_sort_tie_counterexample :
    ([(1 : Fin 2), 0].Perm (List.finRange 2)
      ∧ [(1 : Fin 2), 0].Pairwise (fun c d =>
          (((⟨fun _ _ => false, fun p => {p}⟩ : GState 2).cand d).card
            ≤ ((⟨fun _ _ => false, fun p => {p}⟩ : GState 2).cand c).card)))
    ∧ (nextCandidate [(1 : Fin 2), 0] (⟨fun _ _ => false, fun p => {p}⟩ : GState 2)).map
          (fun r => (r.1, r.2.1)) = some (1, 1)
    ∧ (nextCandidate [(0 : Fin 2), 1] (⟨fun _ _ => false, fun p => {p}⟩ : GState 2)).map
          (fun r => (r.1, r.2.1)) = some (0, 0)
    ∧ (nextCandidate [(1 : Fin 2), 0] (⟨fun _ _ => false, fun p => {p}⟩ : GState 2)).map
          (fun r => (r.1, r.2.1))
        ≠ (nextCandidate [(0 : Fin 2), 1] (⟨fun _ _ => false, fun p => {p}⟩ : GState 2)).map
          (fun r => (r.1, r.2.1)) := by
  refine ⟨⟨?_, ?_⟩, ?_, ?_, ?_⟩ <;> decide

/-- C6 (amended): on any column order that
`sort.Sort(ByMostCandidates(columns))` may produce — a permutation of all columns, non-increasing in candidate
count (ties in unspecified order, as Go's sort is not stable) —
`NextCandidate` returns `⊥` exactly when every candidate set is empty,
and otherwise returns the first pair `(column, candidate)` in the
row-major scan of that order with `column.candidates[candidate] = true`,
after removing that candidate from `column.candidates` and touching
nothing else. -/
theorem c6_next_candidate_contract (n : Nat) (s : GState n) (sorted : List (Fin n))
    (hperm : sorted.Perm (List.finRange n))
    (hsort : sorted.Pairwise fun c d => (s.cand d).card ≤ (s.cand c).card) :
    (nextCandidate sorted s = none ↔ ∀ c, s.cand c = ∅)
    ∧ ∀ c d s', nextCandidate sorted s = some (c, d, s') →
        d ∈ s.cand c
        ∧ s'.adj = s.adj
        ∧ s'.cand c = (s.cand c).erase d
        ∧ (∀ p, p ≠ c → s'.cand p = s.cand p)
        ∧ ∃ pre post, pairScan sorted = pre ++ (c, d) :: post
            ∧ ∀ x ∈ pre, x.2 ∉ s.cand x.1 := by
  constructor
  · have hnone : nextCandidate sorted s = none ↔ findPair s sorted = none := by
      unfold nextCandidate
      match hf : findPair s sorted with
      | none => simp
      | some (c', d') => simp
    rw [hnone, findPair_none_iff]
    constructor
    · intro h c
      rw [Finset.eq_empty_iff_forall_not_mem]
      intro d hd
      have hc : c ∈ sorted := hperm.mem_iff.mpr (List.mem_finRange c)
      have hdm : d ∈ sorted := hperm.mem_iff.mpr (List.mem_finRange d)
      exact h (c, d) (List.mem_flatMap.mpr ⟨c, hc, List.mem_map.mpr ⟨d, hdm, rfl⟩⟩) hd
    · intro h x _
      rw [h x.1]
      exact Finset.not_mem_empty x.2
  · intro c d s' h
    obtain ⟨hfind, hadj, hcand⟩ := nextCandidate_some_spec sorted s c d s' h
    have hmem := findPair_some_mem sorted s c d hfind
    rw [findPair_eq_find?] at hfind
    obtain ⟨_, pre, post, hsplit, hpre⟩ := find?_eq_some_split _ (pairScan sorted) (c, d) hfind
    refine ⟨hmem, hadj, ?_, ?_, pre, post, hsplit, ?_⟩
    · rw [hcand]
      simp
    · intro p hp
      rw [hcand]
      simp [hp]
    · intro x hx
      have := hpre x hx
      simpa using this

/-- C6 witness: one column whose candidate set holds itself; the scan
over the only valid sorted order returns `(0, 0)` and erases it. -/
theorem c6_next_candidate_contract_witness :
    (0 : Fin 1) ∈ (GState.mk (fun _ _ => false) (fun _ => {0}) : GState 1).cand 0 :=
  ((c6_next_candidate_contract 1 ⟨fun _ _ => false, fun _ => {0}⟩ [0]
      (by decide) (by decide)).2 0 0
      ⟨fun _ _ => false, fun p => if p = 0 then ({0} : Finset (Fin 1)).erase 0 else {0}⟩
      (by rfl)).1

/-- Candidate totals only shrink under `InclusionGraph.Add`. -/
theorem totalCand_graphAdd_le (a b : Fin n) (s : GState n) :
    totalCand (graphAdd a b s) ≤ totalCand s := by
  unfold totalCand
  apply Finset.sum_le_sum
  intro p _
  rw [graphAdd_cand_eq]
  unfold addCandT
  split
  · exact Finset.card_le_card (Finset.filter_subset _ _)
  · exact le_refl _

/-- A successful `NextCandidate` strictly shrinks the candidate total. -/
theorem totalCand_nextCandidate_lt (sorted : List (Fin n)) (s : GState n)
    (c d : Fin n) (s' : GState n) (h : nextCandidate sorted s = some (c, d, s')) :
    totalCand s' < totalCand s := by
  obtain ⟨hfind, _, hcand⟩ := nextCandidate_some_spec sorted s c d s' h
  have hmem := findPair_some_mem sorted s c d hfind
  unfold totalCand
  apply Finset.sum_lt_sum
  · intro p _
    rw [hcand]
    by_cases hp : p = c
    · subst hp
      simp only [if_pos rfl]
      exact Finset.card_le_card (Finset.erase_subset d (s.cand p))
    · simp [hp]
  · refine ⟨c, Finset.mem_univ c, ?_⟩
    rw [hcand]
    simp only [if_pos rfl]
    exact Finset.card_erase_lt_of_mem hmem

/-- C7: driver-loop progress and termination.  Each `NextCandidate` call
returning a pair strictly decreases `Σ_c |c.candidates|`; `graph.Add`
never increases it; hence every productive iteration of the loop in
`main` strictly decreases the total, and once the total is zero the loop
body returns `⊥` and the loop terminates. -/
theorem c7_driver_progress (n : Nat) :
    (∀ (sorted : List (Fin n)) (s : GState n) c d s',
        nextCandidate sorted s = some (c, d, s') → totalCand s' < totalCand s)
    ∧ (∀ (a b : Fin n) (s : GState n), totalCand (graphAdd a b s) ≤ totalCand s)
    ∧ (∀ (values : Fin n → Finset String) (sorted : List (Fin n)) (s s' : GState n),
        loopStep values sorted s = some s' → totalCand s' < totalCand s)
    ∧ (∀ (values : Fin n → Finset String) (sorted : List (Fin n)) (s : GState n),
        totalCand s = 0 → loopStep values sorted s = none) := by
  refine ⟨totalCand_nextCandidate_lt, totalCand_graphAdd_le, ?_, ?_⟩
  · intro values sorted s s' h
    unfold loopStep at h
    match hnc : nextCandidate sorted s with
    | none => rw [hnc] at h; exact absurd h (by simp)
    | some (c, d, s₁) =>
      rw [hnc] at h
      simp only [Option.some.injEq] at h
      have h1 := totalCand_nextCandidate_lt sorted s c d s₁ hnc
      rw [← h]
      split
      · exact lt_of_le_of_lt (totalCand_graphAdd_le c d s₁) h1
      · exact h1
  · intro values sorted s h0
    have hempty : ∀ c, s.cand c = ∅ := by
      intro c
      have : (s.cand c).card = 0 := by
        by_contra hne
        have hpos : 0 < (s.cand c).card := Nat.pos_of_ne_zero hne
        have hle : (s.cand c).card ≤ totalCand s := by
          unfold totalCand
          exact @Finset.single_le_sum (Fin n) ℕ _ (fun p => (s.cand p).card) Finset.univ
            (fun p _ => Nat.zero_le _) c (Finset.mem_univ c)
        omega
      exact Finset.card_eq_zero.mp this
    unfold loopStep
    have hfp : findPair s sorted = none := by
      rw [findPair_none_iff]
      intro x _
      rw [hempty x.1]
      exact Finset.not_mem_empty x.2
    unfold nextCandidate
    rw [hfp]

/-- C7 witness: the theorem's conjuncts at a one-column state with a
single self-candidate (total drops 1 → 0) and at the empty state. -/
theorem c7_driver_progress_witness :
    totalCand (GState.mk (fun _ _ => false)
        (fun p => if p = 0 then ({0} : Finset (Fin 1)).erase 0 else {0}) : GState 1)
      < totalCand (GState.mk (fun _ _ => false) (fun _ => ({0} : Finset (Fin 1))) : GState 1)
    ∧ loopStep (fun _ => ∅) [0] (GState.mk (fun _ _ => false) (fun _ => (∅ : Finset (Fin 1))))
        = none :=
  ⟨(c7_driver_progress 1).1 [0] ⟨fun _ _ => false, fun _ => {0}⟩ 0 0
      ⟨fun _ _ => false, fun p => if p = 0 then ({0} : Finset (Fin 1)).erase 0 else {0}⟩ (by rfl),
   (c7_driver_progress 1).2.2.2 (fun _ => ∅) [0] ⟨fun _ _ => false, fun _ => ∅⟩ (by decide)⟩

/-- Graph soundness: every recorded edge is a true value-set inclusion. -/
def Sound (values : Fin n → Finset String) (s : GState n) : Prop :=
  ∀ i j, s.adj i j = true → values i ⊆ values j

/-- `Database.Check` answers exactly the value-set inclusion. -/
theorem checkCand_iff (values : Fin n → Finset String) (a b : Fin n) :
    (checkCand values a b = true ↔ ∀ v ∈ values a, v ∈ values b) := by
  unfold checkCand
  exact decide_eq_true_iff

/-- Adding a verified candidate preserves soundness: the direct edge
holds by the check, and every transitively implied edge composes true
inclusions. -/
theorem sound_graphAdd (values : Fin n → Finset String) (a b : Fin n) (s : GState n)
    (hcheck : checkCand values a b = true) (hs : Sound values s) :
    Sound values (graphAdd a b s) := by
  have hab : values a ⊆ values b := fun v hv => (checkCand_iff values a b).mp hcheck v hv
  intro i j hij
  rw [graphAdd_adj_iff] at hij
  rcases hij with hij | ⟨hia, hj | hj⟩
  · exact hs i j hij
  · exact hj ▸ fun v hv => hab (hs i a hia hv)
  · exact fun v hv => hs b j hj (hab (hs i a hia hv))

/-- The driver loop preserves soundness from any sound state. -/
theorem sound_driverRun (values : Fin n → Finset String) (oracle : Nat → List (Fin n)) :
    ∀ (k : Nat) (s : GState n), Sound values s → Sound values (driverRun values oracle k s) := by
  intro k
  induction k with
  | zero => exact fun s hs => hs
  | succ k ih =>
    intro s hs
    unfold driverRun
    match hl : loopStep values (oracle k) s with
    | none => exact hs
    | some s' =>
      apply ih
      unfold loopStep at hl
      match hnc : nextCandidate (oracle k) s with
      | none => rw [hnc] at hl; exact absurd hl (by simp)
      | some (c, d, s₁) =>
        rw [hnc] at hl
        simp only [Option.some.injEq] at hl
        have hs₁ : Sound values s₁ := by
          obtain ⟨_, hadj, _⟩ := nextCandidate_some_spec (oracle k) s c d s₁ hnc
          intro i j hij
          rw [hadj] at hij
          exact hs i j hij
        rw [← hl]
        split
        next hc => exact sound_graphAdd values c d s₁ hc hs₁
        next => exact hs₁

/-- C1: graph soundness.  For every pair of columns, if the driver loop
in `main` — any number of iterations from the `ToInclusionGraph` initial
state, under any sort orders — records the edge `a ⊆ b` (directly via a
verified candidate or via transitive-closure propagation inside `Add`),
then `a.values ⊆ b.values` as raw-string sets; and verification consults
only the materialized value sets: `Check` returns `true` iff every key
of `a.values` is a key of `b.values`, with the Bloom filter appearing
nowhere in it. -/
theorem c1_graph_soundness (n : Nat) (values : Fin n → Finset String)
    (cand₀ : Fin n → Finset (Fin n)) (oracle : Nat → List (Fin n)) (k : Nat) :
    (∀ a b : Fin n,
        (driverRun values oracle k (initGraph n cand₀)).adj a b = true →
        values a ⊆ values b)
    ∧ (∀ a b : Fin n, (checkCand values a b = true ↔ ∀ v ∈ values a, v ∈ values b)) := by
  refine ⟨?_, checkCand_iff values⟩
  have hinit : Sound values (initGraph n cand₀) := by
    intro i j hij
    simp only [initGraph, decide_eq_true_eq] at hij
    subst hij
    exact Finset.Subset.refl _
  exact sound_driverRun values oracle k (initGraph n cand₀) hinit

/-- C1 witness: two columns with `values 0 = {"x"} ⊆ {"x", "y"} =
values 1`; after one driver iteration the edge `0 ⊆ 1` is recorded and
soundness yields the inclusion. -/
theorem c1_graph_soundness_witness :
    (fun i : Fin 2 => if i = 0 then ({"x"} : Finset String) else {"x", "y"}) 0
      ⊆ (fun i : Fin 2 => if i = 0 then ({"x"} : Finset String) else {"x", "y"}) 1 :=
  (c1_graph_soundness 2 (fun i => if i = 0 then {"x"} else {"x", "y"})
      (fun i => if i = 0 then {1} else ∅) (fun _ => [0, 1]) 1).1 0 1 (by decide)

end IncDep
